import Mathlib

/-!
Verification development for the tarball-resolution core of
`tools/smoketesting/convert-to-tarballs.py`.

The Python functions are shallowly embedded as Lean functions over `String`
(which in this Lean version is a structure wrapping `List Char`, matching
Python's sequence-of-code-points strings for the ASCII data handled here).
Fallible Python code (calls to `int(...)` that may raise `ValueError`,
`list.index` that may raise, the `None`-propagation crashes) is embedded with
`Option`/sum-like result types: `none`/error constructors mark a raised,
uncaught exception.
-/

namespace Releng

/-! ## Basic string utilities mirroring the Python string operations used -/

/-- Model of Python `s.split('.')`: split on every `'.'`, keeping empty parts
(`"".split('.') == ['']`). -/
def splitDot : List Char → List (List Char)
  | [] => [[]]
  | c :: cs =>
    if c = '.' then [] :: splitDot cs
    else
      match splitDot cs with
      | [] => [[c]]
      | p :: ps => (c :: p) :: ps

/-- The fields of a version string, as in `a.split('.')`. -/
def fields (s : String) : List String :=
  (splitDot s.data).map String.mk

/-- Model of Python `int(s)` restricted to the plain-decimal case: digits only,
nonempty. Anything else raises `ValueError`, modeled as `none`. (Python's
`int` also accepts signs/whitespace/underscores; none of those occur in the
dotted-numeric inputs this tool handles.) -/
def pyInt (s : String) : Option Nat :=
  if s.data ≠ [] ∧ s.data.all Char.isDigit then
    some (s.data.foldl (fun n c => n * 10 + (c.toNat - 48)) 0)
  else none

/-- Model of `v.rstrip(os.path.sep)` on a POSIX host: drop trailing `'/'`s. -/
def strip (s : String) : String :=
  ⟨(s.data.reverse.dropWhile (fun c => c = '/')).reverse⟩

/-- Recognizer for a purely dotted-numeric string, i.e. the regular expression
`([0-9]+\.)*[0-9]+`. The flag records whether the next character must be a
digit (true at the start and right after a `'.'`). -/
def dottedAux : Bool → List Char → Bool
  | needDigit, [] => !needDigit
  | needDigit, c :: cs =>
    if c.isDigit then dottedAux false cs
    else if c = '.' && !needDigit then dottedAux true cs
    else false

/-- A dotted-numeric version string: `([0-9]+\.)*[0-9]+`. -/
def dottedB (s : String) : Bool := dottedAux true s.data

/-! ## The version comparators of `get_latest_version` (lines 62-102) -/

/-- Field-by-field loop of `bigger_version` over the common fields; `a` and `b`
are the original strings to return. After the common fields, the longer field
list wins (`if len(a_nums) > len(b_nums): return a else: return b`). A failed
`int()` conversion is `none`. -/
def bvGo (a b : String) : List String → List String → Option String
  | [], [] => some b
  | [], _ :: _ => some b
  | _ :: _, [] => some a
  | x :: xs, y :: ys =>
    match pyInt x, pyInt y with
    | some xv, some yv =>
      if yv < xv then some a
      else if xv < yv then some b
      else bvGo a b xs ys
    | _, _ => none

/-- `bigger_version(a, b)` from `convert-to-tarballs.py` lines 63-75. -/
def bigger_version (a b : String) : Option String :=
  bvGo a b (fields a) (fields b)

/-- Loop of `version_greater_or_equal_to_max` over the common fields; after
exhausting them it returns `True`. -/
def vgeGo : List String → List String → Option Bool
  | _, [] => some true
  | [], _ :: _ => some true
  | x :: xs, y :: ys =>
    match pyInt x, pyInt y with
    | some xv, some yv =>
      if yv < xv then some true
      else if xv < yv then some false
      else vgeGo xs ys
    | _, _ => none

/-- `version_greater_or_equal_to_max(a, max_version)` from lines 82-93.
`max_version` is `None` (`Option.none`) or a string; a falsy (empty) string is
also rejected up front by `if not max_version`. -/
def version_greater_or_equal_to_max (a : String) (maxv : Option String) : Option Bool :=
  match maxv with
  | none => some false
  | some m => if m = "" then some false else vgeGo (fields a) (fields m)

/-- The accumulator loop of `get_latest_version` (lines 98-101), with Python's
short-circuit evaluation of
`(biggest is None or version == bigger_version(biggest, version)) and not
version_greater_or_equal_to_max(version, max_version)` modeled exactly:
`bigger_version` only runs when `biggest` is set, and the ceiling test only
runs when the first conjunct is true. -/
def glvGo (maxv : Option String) : Option String → List String → Option (Option String)
  | biggest, [] => some biggest
  | biggest, v :: rest =>
    let left : Option Bool :=
      match biggest with
      | none => some true
      | some b =>
        match bigger_version b v with
        | some r => some (v == r)
        | none => none
    match left with
    | none => none
    | some false => glvGo maxv biggest rest
    | some true =>
      match version_greater_or_equal_to_max v maxv with
      | none => none
      | some true => glvGo maxv biggest rest
      | some false => glvGo maxv (some v) rest

/-- `get_latest_version(versions, max_version)` from lines 62-102: strip
trailing path separators, then fold the candidates. The outer `Option` is the
exception layer (`none` = uncaught `ValueError` from `int`), the inner
`Option String` is Python's `biggest` (possibly `None`). -/
def get_latest_version (versions : List String) (maxv : Option String) : Option (Option String) :=
  glvGo maxv none (versions.map strip)

/-! ## Lemmas about dotted-numeric strings and the comparators -/

theorem splitDot_ne_nil : ∀ l : List Char, splitDot l ≠ [] := by
  intro l
  cases l with
  | nil => simp [splitDot]
  | cons c cs =>
    by_cases hc : c = '.'
    · simp [splitDot, hc]
    · simp only [splitDot, if_neg hc]
      cases splitDot cs <;> simp

theorem dotted_parts : ∀ l : List Char,
    (dottedAux true l = true → ∀ p ∈ splitDot l, p ≠ [] ∧ p.all Char.isDigit = true) ∧
    (dottedAux false l = true →
      (∀ p ∈ (splitDot l).head?, p.all Char.isDigit = true) ∧
      (∀ p ∈ (splitDot l).tail, p ≠ [] ∧ p.all Char.isDigit = true)) := by
  intro l
  induction l with
  | nil =>
    refine ⟨fun h => by simp [dottedAux] at h, fun _ => ⟨?_, ?_⟩⟩
    · intro p hp
      simp [splitDot] at hp
      simp [hp]
    · intro p hp
      simp [splitDot] at hp
  | cons c cs ih =>
    by_cases hc : c.isDigit
    · have hcdot : c ≠ '.' := by
        intro h; subst h; simp at hc
      obtain ⟨p, ps, hsplit⟩ : ∃ p ps, splitDot cs = p :: ps := by
        cases hs : splitDot cs with
        | nil => exact absurd hs (splitDot_ne_nil cs)
        | cons p ps => exact ⟨p, ps, rfl⟩
      have hcons : splitDot (c :: cs) = (c :: p) :: ps := by
        simp only [splitDot, if_neg hcdot, hsplit]
      have main : dottedAux false cs = true →
          ∀ q ∈ splitDot (c :: cs), q ≠ [] ∧ q.all Char.isDigit = true := by
        intro h q hq
        rw [hcons] at hq
        rcases List.mem_cons.mp hq with hq | hq
        · subst hq
          refine ⟨by simp, ?_⟩
          have hp : p.all Char.isDigit = true := by
            have := (ih.2 h).1
            rw [hsplit] at this
            exact this p rfl
          simp [List.all_cons, hc, hp]
        · have := (ih.2 h).2
          rw [hsplit] at this
          exact this q hq
      constructor
      · intro h
        have h' : dottedAux false cs = true := by
          simpa [dottedAux, hc] using h
        exact main h'
      · intro h
        have h' : dottedAux false cs = true := by
          simpa [dottedAux, hc] using h
        refine ⟨?_, ?_⟩
        · intro q hq
          rw [hcons] at hq
          simp only [List.head?_cons, Option.mem_def, Option.some.injEq] at hq
          subst hq
          exact (main h' (c :: p) (by rw [hcons]; exact List.mem_cons_self _ _)).2
        · intro q hq
          rw [hcons] at hq
          exact main h' q (by rw [hcons]; exact List.mem_cons_of_mem _ hq)
    · constructor
      · intro h
        simp [dottedAux, hc] at h
      · intro h
        by_cases hcdot : c = '.'
        · subst hcdot
          have h' : dottedAux true cs = true := by
            simpa [dottedAux] using h
          have hsplit : splitDot ('.' :: cs) = [] :: splitDot cs := by
            simp [splitDot]
          refine ⟨?_, ?_⟩
          · intro q hq
            rw [hsplit] at hq
            simp only [List.head?_cons, Option.mem_def, Option.some.injEq] at hq
            subst hq
            simp
          · intro q hq
            rw [hsplit] at hq
            simp only [List.tail_cons] at hq
            exact ih.1 h' q hq
        · exfalso
          simp [dottedAux, hc, hcdot] at h

theorem fields_parse {s : String} (h : dottedB s = true) :
    ∀ f ∈ fields s, (pyInt f).isSome = true := by
  intro f hf
  simp only [fields, List.mem_map] at hf
  obtain ⟨p, hp, rfl⟩ := hf
  have := (dotted_parts s.data).1 h p hp
  simp only [pyInt]
  rw [if_pos ⟨this.1, this.2⟩]
  rfl

theorem dottedB_ne_empty {s : String} (h : dottedB s = true) : s ≠ "" := by
  intro he
  subst he
  simp [dottedB, dottedAux] at h

/-- Interpret a parsed field list numerically (all fields parse under the
`dottedB` hypotheses where this is used). -/
def mapVal (l : List String) : List Nat := l.map (fun f => (pyInt f).getD 0)

/-- The integer field sequence of a version string. -/
def numsOf (s : String) : List Nat := mapVal (fields s)

theorem bvGo_cases (a b : String) : ∀ as bs : List String,
    (∀ f ∈ as, (pyInt f).isSome = true) → (∀ f ∈ bs, (pyInt f).isSome = true) →
    bvGo a b as bs = some a ∨ bvGo a b as bs = some b := by
  intro as
  induction as with
  | nil =>
    intro bs _ _
    cases bs <;> simp [bvGo]
  | cons x xs ih =>
    intro bs ha hb
    cases bs with
    | nil => simp [bvGo]
    | cons y ys =>
      obtain ⟨xv, hxv⟩ := Option.isSome_iff_exists.mp (ha x (List.mem_cons_self _ _))
      obtain ⟨yv, hyv⟩ := Option.isSome_iff_exists.mp (hb y (List.mem_cons_self _ _))
      simp only [bvGo, hxv, hyv]
      by_cases h1 : yv < xv
      · simp [h1]
      · by_cases h2 : xv < yv
        · simp [h1, h2]
        · simp only [if_neg h1, if_neg h2]
          exact ih ys (fun f hf => ha f (List.mem_cons_of_mem _ hf))
            (fun f hf => hb f (List.mem_cons_of_mem _ hf))

theorem bigger_version_cases {a b : String} (ha : dottedB a = true) (hb : dottedB b = true) :
    bigger_version a b = some a ∨ bigger_version a b = some b :=
  bvGo_cases a b (fields a) (fields b) (fields_parse ha) (fields_parse hb)

theorem vgeGo_isSome : ∀ as bs : List String,
    (∀ f ∈ as, (pyInt f).isSome = true) → (∀ f ∈ bs, (pyInt f).isSome = true) →
    (vgeGo as bs).isSome = true := by
  intro as
  induction as with
  | nil =>
    intro bs _ _
    cases bs <;> simp [vgeGo]
  | cons x xs ih =>
    intro bs ha hb
    cases bs with
    | nil => simp [vgeGo]
    | cons y ys =>
      obtain ⟨xv, hxv⟩ := Option.isSome_iff_exists.mp (ha x (List.mem_cons_self _ _))
      obtain ⟨yv, hyv⟩ := Option.isSome_iff_exists.mp (hb y (List.mem_cons_self _ _))
      simp only [vgeGo, hxv, hyv]
      by_cases h1 : yv < xv
      · simp [h1]
      · by_cases h2 : xv < yv
        · simp [h1, h2]
        · simp only [if_neg h1, if_neg h2]
          exact ih ys (fun f hf => ha f (List.mem_cons_of_mem _ hf))
            (fun f hf => hb f (List.mem_cons_of_mem _ hf))

theorem vge_isSome {a : String} {maxv : Option String} (ha : dottedB a = true)
    (hm : ∀ m, maxv = some m → dottedB m = true) :
    (version_greater_or_equal_to_max a maxv).isSome = true := by
  cases maxv with
  | none => simp [version_greater_or_equal_to_max]
  | some m =>
    have hdm := hm m rfl
    simp only [version_greater_or_equal_to_max]
    rw [if_neg (dottedB_ne_empty hdm)]
    exact vgeGo_isSome (fields a) (fields m) (fields_parse ha) (fields_parse hdm)

/-! ## Claim C2: the at-or-beyond-ceiling comparator -/

/-- Recursive form of the ceiling comparison over the numeric fields (compare
only the common fields; first difference decides; all-equal means `true`). -/
def atCeilL : List Nat → List Nat → Bool
  | _, [] => true
  | [], _ :: _ => true
  | a :: as, b :: bs =>
    if b < a then true
    else if a < b then false
    else atCeilL as bs

/-- Modelled from the spec: the claim's characterization of the at-or-beyond
comparator, stated positionally over the common fields of the two integer
sequences — either all common fields agree, or at the first position where
they differ A's field is the greater. -/
abbrev claimAtCeiling (as bs : List Nat) : Prop :=
  (∀ i x y : Nat, as[i]? = some x → bs[i]? = some y → x = y) ∨
  (∃ i x y : Nat, as[i]? = some x ∧ bs[i]? = some y ∧ y < x ∧
    ∀ j x2 y2 : Nat, j < i → as[j]? = some x2 → bs[j]? = some y2 → x2 = y2)

theorem atCeilL_iff : ∀ as bs : List Nat, atCeilL as bs = true ↔ claimAtCeiling as bs := by
  intro as
  induction as with
  | nil =>
    intro bs
    have h1 : atCeilL [] bs = true := by cases bs <;> simp [atCeilL]
    rw [h1]
    simp only [true_iff]
    left
    intro i x y hx _
    simp at hx
  | cons a as ih =>
    intro bs
    cases bs with
    | nil =>
      simp only [atCeilL, true_iff]
      left
      intro i x y _ hy
      simp at hy
    | cons b bs =>
      by_cases h1 : b < a
      · simp only [atCeilL, if_pos h1, true_iff]
        right
        refine ⟨0, a, b, by simp, by simp, h1, ?_⟩
        intro j _ _ hj
        omega
      · by_cases h2 : a < b
        · simp only [atCeilL, if_neg h1, if_pos h2, Bool.false_eq_true, false_iff]
          intro hcl
          rcases hcl with hall | ⟨i, x, y, hx, hy, hyx, hmin⟩
          · have := hall 0 a b (by simp) (by simp)
            omega
          · cases i with
            | zero =>
              simp only [List.getElem?_cons_zero, Option.some.injEq] at hx hy
              omega
            | succ j =>
              have := hmin 0 a b (Nat.succ_pos j) (by simp) (by simp)
              omega
        · have hab : a = b := by omega
          subst hab
          simp only [atCeilL, if_neg h1, if_neg h2]
          rw [ih bs]
          constructor
          · intro hcl
            rcases hcl with hall | ⟨i, x, y, hx, hy, hyx, hmin⟩
            · left
              intro i x y hx hy
              cases i with
              | zero =>
                simp only [List.getElem?_cons_zero, Option.some.injEq] at hx hy
                omega
              | succ j =>
                simp only [List.getElem?_cons_succ] at hx hy
                exact hall j x y hx hy
            · right
              refine ⟨i + 1, x, y, by simpa using hx, by simpa using hy, hyx, ?_⟩
              intro j x2 y2 hj hx2 hy2
              cases j with
              | zero =>
                simp only [List.getElem?_cons_zero, Option.some.injEq] at hx2 hy2
                omega
              | succ j2 =>
                simp only [List.getElem?_cons_succ] at hx2 hy2
                exact hmin j2 x2 y2 (by omega) hx2 hy2
          · intro hcl
            rcases hcl with hall | ⟨i, x, y, hx, hy, hyx, hmin⟩
            · left
              intro i x y hx hy
              exact hall (i + 1) x y (by simpa using hx) (by simpa using hy)
            · cases i with
              | zero =>
                simp only [List.getElem?_cons_zero, Option.some.injEq] at hx hy
                omega
              | succ j =>
                right
                simp only [List.getElem?_cons_succ] at hx hy
                refine ⟨j, x, y, hx, hy, hyx, ?_⟩
                intro j2 x2 y2 hj2 hx2 hy2
                exact hmin (j2 + 1) x2 y2 (by omega) (by simpa using hx2) (by simpa using hy2)

theorem vgeGo_eq_atCeilL : ∀ as bs : List String,
    (∀ f ∈ as, (pyInt f).isSome = true) → (∀ f ∈ bs, (pyInt f).isSome = true) →
    vgeGo as bs = some (atCeilL (mapVal as) (mapVal bs)) := by
  intro as
  induction as with
  | nil =>
    intro bs _ _
    cases bs <;> simp [vgeGo, atCeilL, mapVal]
  | cons x xs ih =>
    intro bs ha hb
    cases bs with
    | nil => simp [vgeGo, atCeilL, mapVal]
    | cons y ys =>
      obtain ⟨xv, hxv⟩ := Option.isSome_iff_exists.mp (ha x (List.mem_cons_self _ _))
      obtain ⟨yv, hyv⟩ := Option.isSome_iff_exists.mp (hb y (List.mem_cons_self _ _))
      simp only [vgeGo, hxv, hyv, mapVal, List.map_cons, atCeilL, Option.getD_some]
      by_cases h1 : yv < xv
      · simp [h1]
      · by_cases h2 : xv < yv
        · simp [h1, h2]
        · simp only [if_neg h1, if_neg h2]
          exact ih ys (fun f hf => ha f (List.mem_cons_of_mem _ hf))
            (fun f hf => hb f (List.mem_cons_of_mem _ hf))

/-- C2: the at-or-beyond-ceiling comparator compares only the fields present
in the ceiling B, and `version_greater_or_equal_to_max A B` is true iff at the
first common field where the integer values differ A's field is greater, or
all common fields are equal (so a shorter A such as "2.14" is judged *at*
ceiling "2.14.0"). -/
theorem c2_at_or_beyond_ceiling_fields (a b : String)
    (ha : dottedB a = true) (hb : dottedB b = true) :
    version_greater_or_equal_to_max a (some b) = some true ↔
      claimAtCeiling (numsOf a) (numsOf b) := by
  simp only [version_greater_or_equal_to_max]
  rw [if_neg (dottedB_ne_empty hb)]
  rw [vgeGo_eq_atCeilL (fields a) (fields b) (fields_parse ha) (fields_parse hb)]
  simp only [Option.some.injEq]
  exact atCeilL_iff (mapVal (fields a)) (mapVal (fields b))

/-- C2 witness: the theorem instantiated at A = "2.14" and B = "2.14.0"; the
comparator judges A at the ceiling. -/
theorem c2_at_or_beyond_ceiling_fields_witness :
    version_greater_or_equal_to_max "2.14" (some "2.14.0") = some true ∧
      claimAtCeiling (numsOf "2.14") (numsOf "2.14.0") := by
  have h := c2_at_or_beyond_ceiling_fields "2.14" "2.14.0" (by decide) (by decide)
  have hv : version_greater_or_equal_to_max "2.14" (some "2.14.0") = some true := by decide
  exact ⟨hv, h.mp hv⟩

/-! ## Claim C3: commutativity of the pick-larger comparator -/

theorem bvGo_comm (a b : String) : ∀ as bs : List String,
    (∀ f ∈ as, (pyInt f).isSome = true) → (∀ f ∈ bs, (pyInt f).isSome = true) →
    (mapVal as ≠ mapVal bs → bvGo a b as bs = bvGo b a bs as) ∧
    (mapVal as = mapVal bs → bvGo a b as bs = some b ∧ bvGo b a bs as = some a) := by
  intro as
  induction as with
  | nil =>
    intro bs _ _
    cases bs with
    | nil => exact ⟨fun h => absurd rfl h, fun _ => ⟨rfl, rfl⟩⟩
    | cons y ys =>
      refine ⟨fun _ => rfl, fun h => ?_⟩
      simp [mapVal] at h
  | cons x xs ih =>
    intro bs ha hb
    cases bs with
    | nil =>
      refine ⟨fun _ => rfl, fun h => ?_⟩
      simp [mapVal] at h
    | cons y ys =>
      obtain ⟨xv, hxv⟩ := Option.isSome_iff_exists.mp (ha x (List.mem_cons_self _ _))
      obtain ⟨yv, hyv⟩ := Option.isSome_iff_exists.mp (hb y (List.mem_cons_self _ _))
      have ha' := fun f hf => ha f (List.mem_cons_of_mem _ hf)
      have hb' := fun f hf => hb f (List.mem_cons_of_mem _ hf)
      by_cases h1 : yv < xv
      · refine ⟨fun _ => ?_, fun h => ?_⟩
        · simp only [bvGo, hxv, hyv]
          rw [if_pos h1, if_neg (by omega : ¬ xv < yv), if_pos h1]
        · exfalso
          simp [mapVal, hxv, hyv] at h
          omega
      · by_cases h2 : xv < yv
        · refine ⟨fun _ => ?_, fun h => ?_⟩
          · simp only [bvGo, hxv, hyv]
            rw [if_neg h1, if_pos h2, if_pos h2]
          · exfalso
            simp [mapVal, hxv, hyv] at h
            omega
        · have heads : xv = yv := by omega
          have hrec := ih ys ha' hb'
          have hexp1 : bvGo a b (x :: xs) (y :: ys) = bvGo a b xs ys := by
            simp only [bvGo, hxv, hyv]
            rw [if_neg h1, if_neg h2]
          have hexp2 : bvGo b a (y :: ys) (x :: xs) = bvGo b a ys xs := by
            simp only [bvGo, hxv, hyv]
            rw [if_neg h2, if_neg h1]
          refine ⟨fun hne => ?_, fun heq => ?_⟩
          · rw [hexp1, hexp2]
            apply hrec.1
            intro htl
            apply hne
            simp [mapVal, hxv, hyv, heads] at htl ⊢
            exact htl
          · rw [hexp1, hexp2]
            apply hrec.2
            have h' := heq
            simp [mapVal, hxv, hyv] at h'
            exact h'.2

/-- C3 counterexample: `bigger_version` is not commutative on the numerically
equal but textually distinct pair ("1.0", "1.00"): it returns its second
argument in both orders. -/
theorem c3_pick_larger_not_commutative :
    bigger_version "1.0" "1.00" ≠ bigger_version "1.00" "1.0" := by decide

/-- C3 amended: the pick-larger comparator is commutative on every pair of
dotted-numeric version strings whose parsed integer field sequences differ
(in particular whenever the strings differ numerically or in field count);
on pairs with identical integer sequences (equal up to leading zeros) it is
not commutative: it returns its second argument. -/
theorem c3_pick_larger_commutative_amended (a b : String)
    (ha : dottedB a = true) (hb : dottedB b = true) :
    (numsOf a ≠ numsOf b → bigger_version a b = bigger_version b a) ∧
    (numsOf a = numsOf b → bigger_version a b = some b ∧ bigger_version b a = some a) :=
  bvGo_comm a b (fields a) (fields b) (fields_parse ha) (fields_parse hb)

/-- C3 witness: commutativity holds at the numerically distinct pair
("1.0", "2.0"). -/
theorem c3_pick_larger_commutative_amended_witness :
    bigger_version "1.0" "2.0" = bigger_version "2.0" "1.0" :=
  (c3_pick_larger_commutative_amended "1.0" "2.0" (by decide) (by decide)).1 (by decide)

/-! ## Claim C10: the Option-valued interface of `get_latest_version` -/

theorem glvGo_spec (maxv : Option String) (hm : ∀ m, maxv = some m → dottedB m = true) :
    ∀ vs : List String, ∀ biggest : Option String,
    (∀ v ∈ vs, dottedB v = true) →
    (∀ b0, biggest = some b0 →
      dottedB b0 = true ∧ version_greater_or_equal_to_max b0 maxv = some false) →
    (glvGo maxv biggest vs).isSome = true ∧
    (glvGo maxv biggest vs = some none ↔
      (biggest = none ∧ ∀ v ∈ vs, version_greater_or_equal_to_max v maxv = some true)) ∧
    (∀ b, glvGo maxv biggest vs = some (some b) →
      (b ∈ vs ∨ biggest = some b) ∧ version_greater_or_equal_to_max b maxv = some false) := by
  intro vs
  induction vs with
  | nil =>
    intro biggest _ hinv
    refine ⟨?_, ?_, ?_⟩
    · cases biggest <;> simp [glvGo]
    · cases biggest <;> simp [glvGo]
    · intro b hb
      cases biggest with
      | none => simp [glvGo] at hb
      | some b0 =>
        simp only [glvGo, Option.some.injEq] at hb
        exact ⟨Or.inr (by rw [hb]), (hb ▸ (hinv b0 rfl)).2⟩
  | cons v rest ih =>
    intro biggest hvs hinv
    have hv : dottedB v = true := hvs v (List.mem_cons_self _ _)
    have hrest : ∀ w ∈ rest, dottedB w = true :=
      fun w hw => hvs w (List.mem_cons_of_mem _ hw)
    obtain ⟨g, hg⟩ := Option.isSome_iff_exists.mp (vge_isSome hv hm)
    cases biggest with
    | none =>
      have hexp : glvGo maxv none (v :: rest) =
          match version_greater_or_equal_to_max v maxv with
          | none => none
          | some true => glvGo maxv none rest
          | some false => glvGo maxv (some v) rest := rfl
      cases g with
      | true =>
        have hrw : glvGo maxv none (v :: rest) = glvGo maxv none rest := by
          rw [hexp, hg]
        have h := ih none hrest (by simp)
        refine ⟨hrw ▸ h.1, ?_, ?_⟩
        · rw [hrw, h.2.1]
          constructor
          · rintro ⟨-, hall⟩
            refine ⟨rfl, ?_⟩
            intro w hw
            rcases List.mem_cons.mp hw with rfl | hw
            · exact hg
            · exact hall w hw
          · rintro ⟨-, hall⟩
            exact ⟨rfl, fun w hw => hall w (List.mem_cons_of_mem _ hw)⟩
        · intro b hb
          rw [hrw] at hb
          have := h.2.2 b hb
          rcases this.1 with hmem | hco
          · exact ⟨Or.inl (List.mem_cons_of_mem _ hmem), this.2⟩
          · cases hco
      | false =>
        have hrw : glvGo maxv none (v :: rest) = glvGo maxv (some v) rest := by
          rw [hexp, hg]
        have h := ih (some v) hrest
          (fun b0 hb0 => by
            injection hb0 with hb0
            exact hb0 ▸ ⟨hv, hg⟩)
        refine ⟨hrw ▸ h.1, ?_, ?_⟩
        · rw [hrw, h.2.1]
          constructor
          · rintro ⟨hco, -⟩
            cases hco
          · rintro ⟨-, hall⟩
            have := hall v (List.mem_cons_self _ _)
            rw [hg] at this
            cases this
        · intro b hb
          rw [hrw] at hb
          have := h.2.2 b hb
          rcases this.1 with hmem | hco
          · exact ⟨Or.inl (List.mem_cons_of_mem _ hmem), this.2⟩
          · injection hco with hco
            exact ⟨Or.inl (hco ▸ List.mem_cons_self _ _), this.2⟩
    | some b0 =>
      have hb0 := hinv b0 rfl
      have hbv : bigger_version b0 v = some b0 ∨ bigger_version b0 v = some v :=
        bigger_version_cases hb0.1 hv
      obtain ⟨r, hr⟩ : ∃ r, bigger_version b0 v = some r := by
        rcases hbv with h | h
        · exact ⟨b0, h⟩
        · exact ⟨v, h⟩
      have hexp : glvGo maxv (some b0) (v :: rest) =
          match (v == r : Bool) with
          | false => glvGo maxv (some b0) rest
          | true =>
            match version_greater_or_equal_to_max v maxv with
            | none => none
            | some true => glvGo maxv (some b0) rest
            | some false => glvGo maxv (some v) rest := by
        simp only [glvGo, hr]
        cases (v == r : Bool) <;> rfl
      have hkeep :
          glvGo maxv (some b0) (v :: rest) = glvGo maxv (some b0) rest ∨
          glvGo maxv (some b0) (v :: rest) = glvGo maxv (some v) rest := by
        rw [hexp]
        cases hveq : (v == r : Bool) with
        | false => exact Or.inl rfl
        | true =>
          rw [hg]
          cases g with
          | true => exact Or.inl rfl
          | false => exact Or.inr rfl
      have hkeep' :
          (glvGo maxv (some b0) (v :: rest) = glvGo maxv (some b0) rest) ∨
          (glvGo maxv (some b0) (v :: rest) = glvGo maxv (some v) rest ∧
            version_greater_or_equal_to_max v maxv = some false) := by
        rw [hexp]
        cases hveq : (v == r : Bool) with
        | false => exact Or.inl rfl
        | true =>
          rw [hg]
          cases g with
          | true => exact Or.inl rfl
          | false => exact Or.inr ⟨rfl, rfl⟩
      rcases hkeep' with hrw | ⟨hrw, hvfalse⟩
      · have h := ih (some b0) hrest (fun c hc => by
          injection hc with hc
          exact hc ▸ hb0)
        refine ⟨hrw ▸ h.1, ?_, ?_⟩
        · rw [hrw, h.2.1]
          constructor
          · rintro ⟨hco, -⟩
            cases hco
          · rintro ⟨hco, -⟩
            cases hco
        · intro b hb
          rw [hrw] at hb
          have := h.2.2 b hb
          rcases this.1 with hmem | hco
          · exact ⟨Or.inl (List.mem_cons_of_mem _ hmem), this.2⟩
          · exact ⟨Or.inr hco, this.2⟩
      · have h := ih (some v) hrest (fun c hc => by
          injection hc with hc
          exact hc ▸ ⟨hv, hvfalse⟩)
        refine ⟨hrw ▸ h.1, ?_, ?_⟩
        · rw [hrw, h.2.1]
          constructor
          · rintro ⟨hco, -⟩
            cases hco
          · rintro ⟨hco, -⟩
            cases hco
        · intro b hb
          rw [hrw] at hb
          have := h.2.2 b hb
          rcases this.1 with hmem | hco
          · exact ⟨Or.inl (List.mem_cons_of_mem _ hmem), this.2⟩
          · injection hco with hco
            exact ⟨Or.inl (hco ▸ List.mem_cons_self _ _), this.2⟩

/-- C10: `get_latest_version` is Option-valued at its interface: for dotted-
numeric inputs (after stripping a trailing path separator) and a dotted-
numeric (or absent) ceiling it never raises; it returns `None` exactly when
every stripped entry is at-or-beyond the ceiling (vacuously, when the list is
empty); otherwise it returns a stripped element of the list that is not
at-or-beyond the ceiling. -/
theorem c10_get_latest_version_interface (versions : List String) (maxv : Option String)
    (hv : ∀ v ∈ versions, dottedB (strip v) = true)
    (hm : ∀ m, maxv = some m → dottedB m = true) :
    (get_latest_version versions maxv).isSome = true ∧
    (get_latest_version versions maxv = some none ↔
      ∀ v ∈ versions, version_greater_or_equal_to_max (strip v) maxv = some true) ∧
    (∀ b, get_latest_version versions maxv = some (some b) →
      b ∈ versions.map strip ∧ version_greater_or_equal_to_max b maxv = some false) := by
  have h := glvGo_spec maxv hm (versions.map strip) none (by simpa using hv) (by simp)
  unfold get_latest_version
  refine ⟨h.1, ?_, ?_⟩
  · rw [h.2.1]
    simp
  · intro b hb
    have := h.2.2 b hb
    rcases this.1 with hmem | hco
    · exact ⟨hmem, this.2⟩
    · cases hco

/-- C10 witness: on versions ["1.0/", "2.0"] with ceiling "1.5" the lookup
does not raise. -/
theorem c10_get_latest_version_interface_witness :
    (get_latest_version ["1.0/", "2.0"] (some "1.5")).isSome = true :=
  (c10_get_latest_version_interface ["1.0/", "2.0"] (some "1.5") (by decide)
    (fun m h => by injection h with h2; exact h2 ▸ (by decide))).1

/-! ## Claim C6: mirror substitution round-trip (find_tarball lines 380-383
and 438-442) -/

/-- Two strings are equal when their character lists are. -/
theorem stringExt {s t : String} (h : s.data = t.data) : s = t := by
  cases s
  cases t
  exact congrArg String.mk h

/-- Model of Python `s.replace(old, new, 1)`: replace the first (leftmost)
occurrence of `old` by `new`; no occurrence leaves the string unchanged; an
empty `old` matches at position 0. -/
def replaceFirstL (old new : List Char) : List Char → List Char
  | [] => if old.isPrefixOf ([] : List Char) then new ++ ([] : List Char).drop old.length else []
  | c :: cs =>
    if old.isPrefixOf (c :: cs) then new ++ (c :: cs).drop old.length
    else c :: replaceFirstL old new cs

/-- `location.replace(old, new, 1)` as used on mirror prefixes. -/
def pyReplace1 (s old new : String) : String :=
  ⟨replaceFirstL old.data new.data s.data⟩

theorem replaceFirstL_of_isPrefixOf (old new : List Char) :
    ∀ s : List Char, old.isPrefixOf s = true →
      replaceFirstL old new s = new ++ s.drop old.length := by
  intro s hs
  cases s with
  | nil => simp [replaceFirstL, hs]
  | cons c cs => simp [replaceFirstL, hs]

theorem replaceFirstL_append (old new rest : List Char) :
    replaceFirstL old new (old ++ rest) = new ++ rest := by
  have hpre : old.isPrefixOf (old ++ rest) = true := by
    rw [List.isPrefixOf_iff_prefix]
    exact List.prefix_append old rest
  rw [replaceFirstL_of_isPrefixOf old new (old ++ rest) hpre, List.drop_left]

/-- C6: mirror substitution round-trips. For every mirror pair
(`old`, `new`) and every base location that carries the mirror's original
prefix (`old ++ suffix`), substituting the replacement prefix (line 382),
resolving — which appends path segments and the tarball name (`tail`) — and
then reversing the substitution on the final location (line 440) yields a
location carrying the original non-mirror prefix. -/
theorem c6_mirror_round_trip (old new suffix tail : String) :
    pyReplace1 (pyReplace1 (old ++ suffix) old new ++ tail) new old =
      old ++ (suffix ++ tail) := by
  apply stringExt
  show replaceFirstL new.data old.data
      ((pyReplace1 (old ++ suffix) old new).data ++ tail.data) = _
  have h1 : (pyReplace1 (old ++ suffix) old new).data = new.data ++ suffix.data := by
    show replaceFirstL old.data new.data (old ++ suffix).data = _
    rw [String.data_append, replaceFirstL_append]
  rw [h1, List.append_assoc, replaceFirstL_append]
  simp [String.data_append]

/-! ## Claim C7: per-module failure handling in `process_one_file`
(lines 495-540) -/

/-- The two recoverable lookup failures, both raised as `IOError`:
`'No download site found!'` from `Options.get_download_site` and
`'No versions found'` from `TarballLocator.find_tarball`. -/
inductive SrcFailure
  | noDownloadSite
  | noVersionsFound
deriving DecidableEq

/-- Outcome of `ConvertToTarballs.process_one_file` for one module record.
`skipped*` are the early returns (stack elements, no sources, local-only
sources, git elements in no-convert mode): the record is left untouched.
`rewritten` is the success path (the record's first source is rewritten).
`ignoredTarball` is the `except IOError` branch for archive kinds: the module
name is appended to `ignored_tarballs`, the record is unchanged and the
per-file loop continues. `fatalExit` is `sys.exit(1)`. -/
inductive ProcResult
  | skippedStack
  | skippedNoSources
  | skippedLocal
  | skippedGit
  | rewritten (location version : String)
  | ignoredTarball (moduleName : String)
  | fatalExit (code : Nat)
deriving DecidableEq

/-- Python `s.startswith(p)`. -/
def sStartsWith (s p : String) : Bool := p.data.isPrefixOf s.data

/-- Decision structure of `process_one_file` (lines 495-540): the element
kind / sources / first-source-kind guards, then the `try` around
`find_tarball_by_name`, whose result (or `IOError`) is passed in as
`resolve`. -/
def process_one_file (convert : Bool) (moduleName : String) (elementKind : Option String)
    (sourceKinds : List String) (resolve : Except SrcFailure (String × String)) : ProcResult :=
  if elementKind = some "stack" then .skippedStack
  else
    match sourceKinds with
    | [] => .skippedNoSources
    | kind :: _ =>
      if kind = "local" then .skippedLocal
      else if !convert && sStartsWith kind "git" then .skippedGit
      else
        match resolve with
        | .ok (loc, ver) => .rewritten loc ver
        | .error _ =>
          if kind = "tar" || kind = "zip" then .ignoredTarball moduleName
          else .fatalExit 1

/-- C7: lookup failures are handled at the per-module boundary with
archive-kind demotion: when the element is actually processed (not skipped as
a stack/local/git element) and resolution fails with a no-download-site or
no-versions-found condition, an existing archive kind (`tar` or `zip`)
demotes the module to the ignored list and processing continues with the
record unchanged, while any other kind aborts the run with a non-zero exit. -/
theorem c7_per_module_failure_demotion (convert : Bool) (moduleName : String)
    (elementKind : Option String) (kind : String) (rest : List String) (e : SrcFailure)
    (hstack : elementKind ≠ some "stack") (hlocal : kind ≠ "local")
    (hgit : ¬(convert = false ∧ sStartsWith kind "git" = true)) :
    (kind = "tar" ∨ kind = "zip" →
      process_one_file convert moduleName elementKind (kind :: rest) (.error e) =
        .ignoredTarball moduleName) ∧
    ((kind ≠ "tar" ∧ kind ≠ "zip") →
      process_one_file convert moduleName elementKind (kind :: rest) (.error e) =
        .fatalExit 1 ∧ (1 : Nat) ≠ 0) := by
  have hgit' : (!convert && sStartsWith kind "git") = false := by
    cases hs : sStartsWith kind "git" with
    | false => simp [hs]
    | true =>
      cases hc : convert with
      | false => exact absurd ⟨hc, hs⟩ hgit
      | true => simp [hc]
  constructor
  · intro hk
    simp only [process_one_file, if_neg hstack, if_neg hlocal, hgit', Bool.false_eq_true,
      if_false]
    have hcond : (kind = "tar" || kind = "zip" : Bool) = true := by
      rcases hk with rfl | rfl <;> simp
    rw [if_pos hcond]
  · rintro ⟨hk1, hk2⟩
    refine ⟨?_, by omega⟩
    simp only [process_one_file, if_neg hstack, if_neg hlocal, hgit', Bool.false_eq_true,
      if_false]
    have hcond : (kind = "tar" || kind = "zip" : Bool) = false := by
      simp [hk1, hk2]
    rw [if_neg (by simp [hcond] : ¬ (kind = "tar" || kind = "zip" : Bool) = true)]

/-- C7 witness: a failing lookup for a module whose source is already a
tarball is demoted to ignored; a failing lookup for a git-sourced module is
fatal. -/
theorem c7_per_module_failure_demotion_witness :
    process_one_file true "glib" none ["tar"] (.error SrcFailure.noVersionsFound) =
        ProcResult.ignoredTarball "glib" ∧
      process_one_file true "glib" none ["git"] (.error SrcFailure.noDownloadSite) =
        ProcResult.fatalExit 1 :=
  ⟨(c7_per_module_failure_demotion true "glib" none "tar" [] SrcFailure.noVersionsFound
      (by simp) (by simp) (by simp)).1 (Or.inl rfl),
   ((c7_per_module_failure_demotion true "glib" none "git" [] SrcFailure.noDownloadSite
      (by simp) (by simp) (by simp)).2 ⟨by simp, by simp⟩).1⟩

/-! ## Tarball selection in `find_tarball` (lines 392-442) -/

/-- Python `s.endswith(e)`. -/
def sEndsWith (s e : String) : Bool := e.data.isSuffixOf s.data

/-- Python `s[:-n]` for `n > 0` (also correct for `n ≥ len(s)`, which yields
the empty string). -/
def sDropRight (s : String) (n : Nat) : String := ⟨s.data.take (s.data.length - n)⟩

/-- Occurrence test for Python's substring operator `sub in s`. -/
def containsL (sub : List Char) : List Char → Bool
  | [] => sub.isPrefixOf ([] : List Char)
  | c :: cs => sub.isPrefixOf (c :: cs) || containsL sub cs

/-- Python `sub in s` (substring containment). -/
def sContains (s sub : String) : Bool := containsL sub.data s.data

/-- Model of `posixpath.join(a, b)`: an absolute second component replaces the
first; otherwise a separator is inserted unless one is already present. -/
def posixjoin (a b : String) : String :=
  if b.data.head? = some '/' then b
  else if a = "" ∨ a.data.getLast? = some '/' then a ++ b
  else a ++ "/" ++ b

/-- Recognizer for the version group of the tarball regular expression,
`(([0-9]+[\.\-])*[0-9]+)`: digit runs separated by single dots or dashes.
The flag records whether the next character must be a digit. -/
def verAux : Bool → List Char → Bool
  | needDigit, [] => !needDigit
  | needDigit, c :: cs =>
    if c.isDigit then verAux false cs
    else if (c = '.' || c = '-') && !needDigit then verAux true cs
    else false

/-- What must follow the version group in the tarball pattern:
`(\.orig)?\.tar.*$`. -/
def afterVer (l : List Char) : Bool :=
  ".orig.tar".data.isPrefixOf l || ".tar".data.isPrefixOf l

/-- Matcher for the anchored tarball pattern of line 424:
`^<module>[_-](([0-9]+[\.\-])*[0-9]+)(\.orig)?\.tar.*$` (the module name is
`re.escape`d, so it matches literally). The version/tail split of the
remainder is unique when it exists (the tail starts with `'.'` followed by a
letter, which the version group cannot contain), so searching all split
points is equivalent to the regex engine's backtracking search. -/
def tarballMatch (module file : String) : Bool :=
  module.data.isPrefixOf file.data &&
    match file.data.drop module.data.length with
    | [] => false
    | c :: rest =>
      (c = '-' || c = '_') &&
        (List.range rest.length).any
          (fun k => verAux true (rest.take (k + 1)) && afterVer (rest.drop (k + 1)))

/-- The capture of group 1 in `re.sub(re_tarball, r'\1', t)` (line 431): the
version part of a matching tarball name. `none` when the pattern does not
match (in which case `re.sub` returns the string unchanged). -/
def extractVersion (module file : String) : Option String :=
  if module.data.isPrefixOf file.data then
    match file.data.drop module.data.length with
    | [] => none
    | c :: rest =>
      if c = '-' || c = '_' then
        ((List.range rest.length).find?
            (fun k => verAux true (rest.take (k + 1)) && afterVer (rest.drop (k + 1)))).map
          (fun k => ⟨rest.take (k + 1)⟩)
      else none
  else none

/-- Extension preference list for `ftp.debian.org` locations (lines 397-402). -/
def debianExts : List String := [".tar.xz", ".tar.bz2", ".tar.gz"]

/-- Default extension preference list (lines 403-410). -/
def defaultExts : List String :=
  [".tar.xz", "orig.tar.bz2", ".tar.bz2", "orig.tar.gz", ".tar.gz"]

/-- One pass of the collection loop (lines 414-419) for a single extension:
walk the files in order; a file ending in the extension whose stem
(`file[:-len(ext)]`) is not yet claimed is appended to the candidates and its
stem is claimed. State is `(basenames, tarballs)`. -/
def collectExtPass (ext : String) : List String → List String × List String → List String × List String
  | [], st => st
  | file :: restFiles, st =>
    if sEndsWith file ext && !(st.1.contains (sDropRight file ext.length)) then
      collectExtPass ext restFiles (sDropRight file ext.length :: st.1, st.2 ++ [file])
    else collectExtPass ext restFiles st

/-- The outer loop over extensions, in preference order. -/
def collectPasses (files : List String) : List String → List String × List String → List String × List String
  | [], st => st
  | ext :: restExts, st => collectPasses files restExts (collectExtPass ext files st)

/-- The candidate tarballs collected from a final listing (lines 395-419). -/
def collectTarballs (exts files : List String) : List String :=
  (collectPasses files exts ([], [])).2

/-- The module filters of lines 421-429: keep candidates containing the
module name as a substring, then those matching the strict tarball pattern. -/
def tarballFilterStage (module : String) (tarballs : List String) : List String :=
  (tarballs.filter (fun t => sContains t module)).filter (fun t => tarballMatch module t)

/-- Extension order is chosen by `location.find("ftp.debian.org") != -1`. -/
def extsFor (location : String) : List String :=
  if sContains location "ftp.debian.org" then debianExts else defaultExts

/-- The surviving candidates for a module in a final listing. -/
def candidateTarballs (location module : String) (files : List String) : List String :=
  tarballFilterStage module (collectTarballs (extsFor location) files)

/-- The extracted version strings (line 431): `re.sub(re_tarball, r'\1', t)`,
which leaves a non-matching string unchanged. -/
def candidateVersions (location module : String) (files : List String) : List String :=
  (candidateTarballs location module files).map
    (fun t =>
      match extractVersion module t with
      | some v => v
      | none => t)

/-- Outcome of the selection portion of `find_tarball` (lines 392-442, mirror
substitution aside). `noVersions` is the raised `IOError('No versions
found')`; `pyError` is an uncaught exception (the `ValueError` from
`versions.index(None)` when `get_latest_version` returns `None`, or a
`ValueError` from `int()` on a malformed extracted version). -/
inductive SelectResult
  | ok (location version : String)
  | noVersions
  | pyError
deriving DecidableEq

/-- The final-listing selection logic of `find_tarball` (lines 392-442):
collect candidates by extension preference, filter by module, extract
versions, pick the best version under the ceiling, and return the location
join and version. -/
def findTarballSelect (location : String) (files : List String) (module : String)
    (maxv : Option String) : SelectResult :=
  if (candidateVersions location module files).length = 0 then .noVersions
  else
    match get_latest_version (candidateVersions location module files) maxv with
    | none => .pyError
    | some none => .pyError
    | some (some v) =>
      match List.indexOf? v (candidateVersions location module files) with
      | none => .pyError
      | some i =>
        match (candidateTarballs location module files)[i]? with
        | none => .pyError
        | some t => .ok (posixjoin location t) v

/-! ## Suffix and stem lemmas -/

theorem sEndsWith_iff {s e : String} : sEndsWith s e = true ↔ e.data <:+ s.data :=
  List.isSuffixOf_iff_suffix

theorem sEndsWith_append (s e : String) : sEndsWith (s ++ e) e = true := by
  rw [sEndsWith_iff, String.data_append]
  exact List.suffix_append s.data e.data

theorem sDropRight_append (s e : String) : sDropRight (s ++ e) e.length = s := by
  apply stringExt
  show (s ++ e).data.take ((s ++ e).data.length - e.length) = s.data
  rw [String.data_append]
  have he : e.length = e.data.length := rfl
  rw [he, List.length_append, Nat.add_sub_cancel, List.take_left]

theorem ends_eq_of_length_eq {f e1 e2 : String} (h1 : sEndsWith f e1 = true)
    (h2 : sEndsWith f e2 = true) (hlen : e1.data.length = e2.data.length) : e1 = e2 := by
  rw [sEndsWith_iff] at h1 h2
  obtain ⟨t1, ht1⟩ := h1
  obtain ⟨t2, ht2⟩ := h2
  apply stringExt
  have h := ht1.trans ht2.symm
  have hl : t1.length = t2.length := by
    have := congrArg List.length h
    simp only [List.length_append] at this
    omega
  exact (List.append_inj h hl).2

theorem suffix_of_ends_le {f e1 e2 : String} (h1 : sEndsWith f e1 = true)
    (h2 : sEndsWith f e2 = true) (hle : e1.data.length ≤ e2.data.length) :
    e1.data <:+ e2.data := by
  rw [sEndsWith_iff] at h1 h2
  rw [← List.reverse_prefix] at h1 h2 ⊢
  exact List.prefix_of_prefix_length_le h1 h2 (by simpa using hle)

theorem ends_append_iff {s t e : String} :
    sEndsWith (s ++ e) (t ++ e) = true ↔ sEndsWith s t = true := by
  rw [sEndsWith_iff, sEndsWith_iff, String.data_append, String.data_append]
  constructor
  · rintro ⟨u, hu⟩
    rw [← List.append_assoc] at hu
    have hl : (u ++ t.data).length = s.data.length := by
      have := congrArg List.length hu
      simp only [List.length_append] at this ⊢
      omega
    exact ⟨u, (List.append_inj hu (by simpa using hl)).1⟩
  · rintro ⟨u, hu⟩
    exact ⟨u, by rw [← List.append_assoc, hu]⟩

theorem ends_reconstruct {f e : String} (h : sEndsWith f e = true) :
    sDropRight f e.length ++ e = f := by
  rw [sEndsWith_iff] at h
  obtain ⟨t, ht⟩ := h
  apply stringExt
  rw [String.data_append]
  show f.data.take (f.data.length - e.length) ++ e.data = f.data
  rw [← ht]
  have he : e.length = e.data.length := rfl
  rw [he, List.length_append, Nat.add_sub_cancel, List.take_left]

theorem contains_iff {l : List String} {y : String} : l.contains y = true ↔ y ∈ l :=
  List.elem_iff

theorem contains_false_iff {l : List String} {y : String} : l.contains y = false ↔ y ∉ l := by
  rw [← Bool.not_eq_true, contains_iff]

/-! ## Lemmas about the extension collection passes -/

theorem collectExtPass_tb_mono (ext : String) :
    ∀ (files : List String) (st : List String × List String) (x : String),
      x ∈ st.2 → x ∈ (collectExtPass ext files st).2 := by
  intro files
  induction files with
  | nil =>
    intro st x hx
    exact hx
  | cons file rest ih =>
    intro st x hx
    simp only [collectExtPass]
    split
    · exact ih _ x (List.mem_append_left _ hx)
    · exact ih st x hx

theorem collectExtPass_bn_mono (ext : String) :
    ∀ (files : List String) (st : List String × List String) (y : String),
      y ∈ st.1 → y ∈ (collectExtPass ext files st).1 := by
  intro files
  induction files with
  | nil =>
    intro st y hy
    exact hy
  | cons file rest ih =>
    intro st y hy
    simp only [collectExtPass]
    split
    · exact ih _ y (List.mem_cons_of_mem _ hy)
    · exact ih st y hy

theorem collectExtPass_mem (ext : String) :
    ∀ (files : List String) (st : List String × List String) (x : String),
      x ∈ (collectExtPass ext files st).2 →
      x ∈ st.2 ∨
        (x ∈ files ∧ sEndsWith x ext = true ∧ sDropRight x ext.length ∉ st.1) := by
  intro files
  induction files with
  | nil =>
    intro st x hx
    exact Or.inl hx
  | cons file rest ih =>
    intro st x hx
    simp only [collectExtPass] at hx
    by_cases hcond :
        (sEndsWith file ext && !(st.1.contains (sDropRight file ext.length))) = true
    · rw [if_pos hcond] at hx
      have hc : sEndsWith file ext = true ∧ sDropRight file ext.length ∉ st.1 := by
        rw [Bool.and_eq_true, Bool.not_eq_true', contains_false_iff] at hcond
        exact hcond
      rcases ih _ x hx with hin | ⟨hinr, hends, hnot⟩
      · rcases List.mem_append.mp hin with h | h
        · exact Or.inl h
        · have hxf : x = file := by simpa using h
          subst hxf
          exact Or.inr ⟨List.mem_cons_self _ _, hc.1, hc.2⟩
      · refine Or.inr ⟨List.mem_cons_of_mem _ hinr, hends, fun hmem => ?_⟩
        exact hnot (List.mem_cons_of_mem _ hmem)
    · rw [if_neg hcond] at hx
      rcases ih st x hx with hin | ⟨hinr, hends, hnot⟩
      · exact Or.inl hin
      · exact Or.inr ⟨List.mem_cons_of_mem _ hinr, hends, hnot⟩

theorem collectExtPass_claims (ext : String) :
    ∀ (files : List String) (st : List String × List String) (f : String),
      f ∈ files → sEndsWith f ext = true →
      sDropRight f ext.length ∈ (collectExtPass ext files st).1 := by
  intro files
  induction files with
  | nil =>
    intro st f hf _
    cases hf
  | cons file rest ih =>
    intro st f hf hends
    simp only [collectExtPass]
    rcases List.mem_cons.mp hf with rfl | hf
    · by_cases hcond :
          (sEndsWith f ext && !(st.1.contains (sDropRight f ext.length))) = true
      · rw [if_pos hcond]
        exact collectExtPass_bn_mono ext rest _ _ (List.mem_cons_self _ _)
      · rw [if_neg hcond]
        have hmem : sDropRight f ext.length ∈ st.1 := by
          rw [Bool.and_eq_true] at hcond
          push_neg at hcond
          have hne := hcond hends
          apply contains_iff.mp
          rcases Bool.eq_false_or_eq_true (st.1.contains (sDropRight f ext.length)) with hcb | hcb
          · exact hcb
          · exfalso
            apply hne
            rw [hcb]
            rfl
        exact collectExtPass_bn_mono ext rest st _ hmem
    · split
      · exact ih _ f hf hends
      · exact ih st f hf hends

theorem collectExtPass_present (ext : String) :
    ∀ (files : List String) (st : List String × List String) (f : String),
      f ∈ files → sEndsWith f ext = true →
      sDropRight f ext.length ∈ st.1 ∨ f ∈ (collectExtPass ext files st).2 := by
  intro files
  induction files with
  | nil =>
    intro st f hf _
    cases hf
  | cons file rest ih =>
    intro st f hf hends
    by_cases hcond :
        (sEndsWith file ext && !(st.1.contains (sDropRight file ext.length))) = true
    · have hred : collectExtPass ext (file :: rest) st =
          collectExtPass ext rest
            (sDropRight file ext.length :: st.1, st.2 ++ [file]) := by
        simp only [collectExtPass, if_pos hcond]
      rcases List.mem_cons.mp hf with rfl | hf
      · right
        rw [hred]
        exact collectExtPass_tb_mono ext rest _ f
          (List.mem_append_right _ (List.mem_cons_self _ _))
      · rcases ih (sDropRight file ext.length :: st.1, st.2 ++ [file]) f hf hends with hbn | htb
        · rcases List.mem_cons.mp hbn with heq | hbn'
          · -- same stem under the same extension: f is the already-collected file
            have hfile_ends : sEndsWith file ext = true := by
              rw [Bool.and_eq_true] at hcond
              exact hcond.1
            have : f = file := by
              have h1 := ends_reconstruct hends
              have h2 := ends_reconstruct hfile_ends
              rw [← h1, ← h2, heq]
            subst this
            right
            rw [hred]
            exact collectExtPass_tb_mono ext rest _ f
              (List.mem_append_right _ (List.mem_cons_self _ _))
          · exact Or.inl hbn'
        · right
          rw [hred]
          exact htb
    · have hred : collectExtPass ext (file :: rest) st = collectExtPass ext rest st := by
        simp only [collectExtPass, if_neg hcond]
      rcases List.mem_cons.mp hf with rfl | hf
      · -- the head file itself was skipped: its stem must already be claimed
        left
        rw [Bool.and_eq_true] at hcond
        push_neg at hcond
        have hne := hcond hends
        apply contains_iff.mp
        rcases Bool.eq_false_or_eq_true (st.1.contains (sDropRight f ext.length)) with hcb | hcb
        · exact hcb
        · exfalso
          apply hne
          rw [hcb]
          rfl
      · rw [hred]
        exact ih st f hf hends

/-! ## Concrete extension facts -/

theorem not_ends_tgz_txz (s : String) : sEndsWith (s ++ ".tar.gz") ".tar.xz" = false := by
  rcases Bool.eq_false_or_eq_true (sEndsWith (s ++ ".tar.gz") ".tar.xz") with h | h
  · exact absurd (ends_eq_of_length_eq (sEndsWith_append s ".tar.gz") h (by decide)) (by decide)
  · exact h

theorem not_ends_tgz_tbz2 (s : String) : sEndsWith (s ++ ".tar.gz") ".tar.bz2" = false := by
  rcases Bool.eq_false_or_eq_true (sEndsWith (s ++ ".tar.gz") ".tar.bz2") with h | h
  · exact absurd (suffix_of_ends_le (sEndsWith_append s ".tar.gz") h (by decide)) (by decide)
  · exact h

theorem not_ends_tgz_obz2 (s : String) : sEndsWith (s ++ ".tar.gz") "orig.tar.bz2" = false := by
  rcases Bool.eq_false_or_eq_true (sEndsWith (s ++ ".tar.gz") "orig.tar.bz2") with h | h
  · exact absurd (suffix_of_ends_le (sEndsWith_append s ".tar.gz") h (by decide)) (by decide)
  · exact h

theorem ends_tgz_ogz_iff (s : String) :
    sEndsWith (s ++ ".tar.gz") "orig.tar.gz" = true ↔ sEndsWith s "orig" = true := by
  have h : ("orig.tar.gz" : String) = "orig" ++ ".tar.gz" := by decide
  rw [h]
  exact ends_append_iff

/-! ## Claim C4: extension preference and per-stem deduplication -/

/-- C4 counterexample: for the final listing
`["fooorig.tar.xz", "fooorig.tar.gz"]` both files survive collection — the
`.tar.gz` twin is collected under the `"orig.tar.gz"` extension with the
different stem `"foo"`, even though the stem `"fooorig"` was already claimed
by the more-compressed `.tar.xz` form. So more than one candidate survives
for the same logical release artifact and the most-compressed form does not
win, refuting the claim's universal guarantee. -/
theorem c4_stem_dedup_counterexample :
    collectTarballs defaultExts ["fooorig.tar.xz", "fooorig.tar.gz"] =
      ["fooorig.tar.xz", "fooorig.tar.gz"] := by decide

/-- C4 amended: candidates are collected per extension in the fixed
preference order and a file is skipped when its stem (filename minus the
extension being processed) was already claimed by a higher-preference
extension; consequently, for a stem that does not itself end in "orig" (so
the `orig.`-prefixed extensions cannot re-match its `.tar.gz` twin under a
shorter stem), the `.tar.xz` form is collected and the `.tar.gz` twin never
survives; in particular from {"foo-1.0.tar.gz", "foo-1.0.tar.xz"} exactly
"foo-1.0.tar.xz" is selected. -/
theorem c4_extension_preference_amended (files : List String) (s : String)
    (hxz : (s ++ ".tar.xz") ∈ files) (horig : sEndsWith s "orig" = false) :
    (s ++ ".tar.xz") ∈ collectTarballs defaultExts files ∧
      (s ++ ".tar.gz") ∉ collectTarballs defaultExts files := by
  have hct : collectTarballs defaultExts files =
      (collectExtPass ".tar.gz" files
        (collectExtPass "orig.tar.gz" files
          (collectExtPass ".tar.bz2" files
            (collectExtPass "orig.tar.bz2" files
              (collectExtPass ".tar.xz" files ([], [])))))).2 := rfl
  have h1mem : (s ++ ".tar.xz") ∈ (collectExtPass ".tar.xz" files ([], [])).2 := by
    rcases collectExtPass_present ".tar.xz" files ([], []) _ hxz
        (sEndsWith_append s ".tar.xz") with h | h
    · cases h
    · exact h
  have h1bn : s ∈ (collectExtPass ".tar.xz" files ([], [])).1 := by
    have := collectExtPass_claims ".tar.xz" files ([], []) _ hxz (sEndsWith_append s ".tar.xz")
    rwa [sDropRight_append] at this
  constructor
  · rw [hct]
    exact collectExtPass_tb_mono _ _ _ _
      (collectExtPass_tb_mono _ _ _ _
        (collectExtPass_tb_mono _ _ _ _
          (collectExtPass_tb_mono _ _ _ _ h1mem)))
  · rw [hct]
    intro hmem
    rcases collectExtPass_mem ".tar.gz" files _ _ hmem with hmem4 | ⟨_, _, hnot⟩
    · rcases collectExtPass_mem "orig.tar.gz" files _ _ hmem4 with hmem3 | ⟨_, hends, _⟩
      · rcases collectExtPass_mem ".tar.bz2" files _ _ hmem3 with hmem2 | ⟨_, hends, _⟩
        · rcases collectExtPass_mem "orig.tar.bz2" files _ _ hmem2 with hmem1 | ⟨_, hends, _⟩
          · rcases collectExtPass_mem ".tar.xz" files _ _ hmem1 with hmem0 | ⟨_, hends, _⟩
            · cases hmem0
            · rw [not_ends_tgz_txz] at hends
              cases hends
          · rw [not_ends_tgz_obz2] at hends
            cases hends
        · rw [not_ends_tgz_tbz2] at hends
          cases hends
      · exact absurd ((ends_tgz_ogz_iff s).mp hends) (by simp [horig])
    · apply hnot
      rw [sDropRight_append]
      exact collectExtPass_bn_mono _ _ _ _
        (collectExtPass_bn_mono _ _ _ _
          (collectExtPass_bn_mono _ _ _ _ h1bn))

/-- C4 witness: the claim's own example, via the amended theorem. -/
theorem c4_extension_preference_amended_witness :
    ("foo-1.0" ++ ".tar.xz") ∈
        collectTarballs defaultExts ["foo-1.0.tar.xz", "foo-1.0.tar.gz"] ∧
      ("foo-1.0" ++ ".tar.gz") ∉
        collectTarballs defaultExts ["foo-1.0.tar.xz", "foo-1.0.tar.gz"] :=
  c4_extension_preference_amended ["foo-1.0.tar.xz", "foo-1.0.tar.gz"] "foo-1.0"
    (by decide) (by decide)

/-! ## Claim C5: the strict tarball-name pattern -/

/-- C5: for module "foo" and the final listing {"foo-1.0.tar.gz",
"foo-beta-1.0.tar.gz", "foobar-1.0.tar.gz"}, only "foo-1.0.tar.gz" survives
the module-substring and strict-pattern filters: the "-beta" variant has a
non-numeric component after the separator and "foobar" continues the module
name without a separator. -/
theorem c5_strict_pattern_filtering :
    tarballFilterStage "foo"
        (collectTarballs defaultExts
          ["foo-1.0.tar.gz", "foo-beta-1.0.tar.gz", "foobar-1.0.tar.gz"]) =
      ["foo-1.0.tar.gz"] := by decide

/-! ## Claim C1: ceiling exclusion in descent and final selection -/

theorem glvGo_some_not_at_ceiling (maxv : Option String) :
    ∀ (vs : List String) (biggest : Option String) (b : String),
      (∀ b0, biggest = some b0 → version_greater_or_equal_to_max b0 maxv = some false) →
      glvGo maxv biggest vs = some (some b) →
      version_greater_or_equal_to_max b maxv = some false := by
  intro vs
  induction vs with
  | nil =>
    intro biggest b hinv h
    simp only [glvGo, Option.some.injEq] at h
    exact hinv b h
  | cons v rest ih =>
    intro biggest b hinv h
    cases biggest with
    | none =>
      have hexp : glvGo maxv none (v :: rest) =
          match version_greater_or_equal_to_max v maxv with
          | none => none
          | some true => glvGo maxv none rest
          | some false => glvGo maxv (some v) rest := rfl
      rw [hexp] at h
      cases hg : version_greater_or_equal_to_max v maxv with
      | none =>
        rw [hg] at h
        cases h
      | some g =>
        rw [hg] at h
        cases g with
        | true => exact ih none b (by simp) h
        | false =>
          exact ih (some v) b
            (fun b0 hb0 => by
              injection hb0 with hb0
              exact hb0 ▸ hg) h
    | some b0 =>
      cases hr : bigger_version b0 v with
      | none =>
        have hz : glvGo maxv (some b0) (v :: rest) = none := by
          simp only [glvGo, hr]
        rw [hz] at h
        cases h
      | some r =>
        have hexp : glvGo maxv (some b0) (v :: rest) =
            match (v == r : Bool) with
            | false => glvGo maxv (some b0) rest
            | true =>
              match version_greater_or_equal_to_max v maxv with
              | none => none
              | some true => glvGo maxv (some b0) rest
              | some false => glvGo maxv (some v) rest := by
          simp only [glvGo, hr]
          cases (v == r : Bool) <;> rfl
        rw [hexp] at h
        cases hveq : (v == r : Bool) with
        | false =>
          rw [hveq] at h
          exact ih (some b0) b hinv h
        | true =>
          rw [hveq] at h
          cases hg : version_greater_or_equal_to_max v maxv with
          | none =>
            rw [hg] at h
            cases h
          | some g =>
            rw [hg] at h
            cases g with
            | true => exact ih (some b0) b hinv h
            | false =>
              exact ih (some v) b
                (fun b0' hb0 => by
                  injection hb0 with hb0
                  exact hb0 ▸ hg) h

theorem get_latest_version_not_at_ceiling {dirs : List String} {maxv : Option String}
    {d : String} (h : get_latest_version dirs maxv = some (some d)) :
    version_greater_or_equal_to_max d maxv = some false :=
  glvGo_some_not_at_ceiling maxv (dirs.map strip) none d (by simp) h

/-- C1 counterexample: with ceiling "3.14" and the final listing
`["foo-3.14.tar.gz"]`, the file whose extracted version is at the ceiling is
not selected: `get_latest_version` skips it (the at-or-beyond test is also
applied to final-listing files), returns `None`, and `versions.index(None)`
raises an uncaught `ValueError` — the claim's "still selectable and returned
as the resolved artifact" is false. -/
theorem c1_ceiling_file_counterexample :
    findTarballSelect "http://download.gnome.org/sources/foo" ["foo-3.14.tar.gz"] "foo"
        (some "3.14") = SelectResult.pyError := by decide

/-- C1 amended: ceiling exclusion gates final-file selection exactly as it
gates directory descent: any version returned by the selection (and any
subdirectory chosen during descent) satisfies the strict not-at-or-beyond
test; a final-listing file whose extracted version is at the ceiling is never
returned (when all candidates are at-or-beyond, the code raises instead). -/
theorem c1_ceiling_gates_selection_and_descent (location : String) (files : List String)
    (module : String) (maxv : Option String) :
    (∀ loc ver, findTarballSelect location files module maxv = SelectResult.ok loc ver →
      version_greater_or_equal_to_max ver maxv = some false) ∧
    (∀ (dirs : List String) (d : String),
      get_latest_version dirs maxv = some (some d) →
      version_greater_or_equal_to_max d maxv = some false) := by
  constructor
  · intro loc ver h
    unfold findTarballSelect at h
    split at h
    · cases h
    · split at h
      · cases h
      · cases h
      · rename_i v hglv
        have hvge := get_latest_version_not_at_ceiling hglv
        split at h
        · cases h
        · rename_i i hidx
          split at h
          · cases h
          · rename_i t htb
            injection h with h1 h2
            exact h2 ▸ hvge
  · intro dirs d h
    exact get_latest_version_not_at_ceiling h

/-- C1 witness: a selection below the ceiling goes through and its version is
strictly below the ceiling. -/
theorem c1_ceiling_gates_selection_and_descent_witness :
    version_greater_or_equal_to_max "1.2" (some "2.0") = some false :=
  (c1_ceiling_gates_selection_and_descent "http://h/d" ["foo-1.2.tar.gz"] "foo"
      (some "2.0")).1 "http://h/d/foo-1.2.tar.gz" "1.2" (by decide)

/-! ## Claim C8: directory descent (`_get_files_from_http`, lines 353-372) -/

/-- The `good_dir` pattern of line 354: `^([0-9]+\.)*[0-9]+/?$` (an optional
single trailing slash after a dotted-numeric name). -/
def goodDirHttp (s : String) : Bool :=
  if s.data.getLast? = some '/' then dottedAux true s.data.dropLast
  else dottedAux true s.data

/-- The pattern of `fixdirs` (line 356): exactly two numeric components,
`^([0-9]+\.[0-9]+)/?$`. -/
def twoCompCore (l : List Char) : Bool :=
  match splitDot l with
  | [p, q] => !p.isEmpty && !q.isEmpty && p.all Char.isDigit && q.all Char.isDigit
  | _ => false

/-- `fixdirs` (line 356): `re.sub(r'^([0-9]+\.[0-9]+)/?$', r'\1', x)` — strips
the trailing slash, but only from names with exactly two numeric components;
anything else (including three-component names such as "1.2.3/") is left
unchanged. -/
def fixdirs (s : String) : String :=
  if s.data.getLast? = some '/' then
    if twoCompCore s.data.dropLast then ⟨s.data.dropLast⟩ else s
  else s

/-- `posixjoin(a, b, c)` as used on line 368/369 with `c = ""`. -/
def posixjoin3 (a b c : String) : String := posixjoin (posixjoin a b) c

/-- The listing environment: a finite association of locations to directory
listings, modeling what each `requests.get` + `get_links` pair returns.
Redirects are not modeled (the requested location is the key). -/
def lookupListing (listings : List (String × List String)) (loc : String) :
    Option (List String) :=
  (listings.find? (fun kv => kv.1 == loc)).map (fun kv => kv.2)

/-- How one descent run ends: at a final listing (the loop's `break`), at a
location with no listing (the HTTP fetch fails, halting the run), with a
raised exception (`int()` failure inside `get_latest_version`, or the
`TypeError` from `posixjoin(..., None, "")` when every subdirectory is
at-or-beyond the ceiling), or out of fuel (never, by `c8_descent_terminates`). -/
inductive DescEnd
  | found (loc : String) (files : List String)
  | missingListing (loc : String)
  | raised (loc : String)
  | fuelOut
deriving DecidableEq

/-- The `while True` descent loop of `_get_files_from_http` (lines 360-371),
with an explicit fuel bound and the visited locations recorded: list the
current location; filter entries against the `good_dir` pattern and clean
them with `fixdirs`; if any remain, pick the best below the ceiling and
descend into `posixjoin(location, newdir, "")`; otherwise stop. -/
def descendTrace (listings : List (String × List String)) (maxv : Option String) :
    Nat → String → List String × DescEnd
  | 0, _ => ([], .fuelOut)
  | fuel + 1, loc =>
    match lookupListing listings loc with
    | none => ([loc], .missingListing loc)
    | some files =>
      if ((files.filter goodDirHttp).map fixdirs).isEmpty then ([loc], .found loc files)
      else
        match get_latest_version ((files.filter goodDirHttp).map fixdirs) maxv with
        | none => ([loc], .raised loc)
        | some none => ([loc], .raised loc)
        | some (some d) =>
          (loc :: (descendTrace listings maxv fuel (posixjoin3 loc d "")).1,
            (descendTrace listings maxv fuel (posixjoin3 loc d "")).2)

/-! ### Character-level facts about good directory names -/

theorem dotted_chars : ∀ (l : List Char) (b : Bool), dottedAux b l = true →
    ∀ c ∈ l, c.isDigit = true ∨ c = '.' := by
  intro l
  induction l with
  | nil =>
    intro b _ c hc
    cases hc
  | cons x xs ih =>
    intro b h c hc
    by_cases hx : x.isDigit
    · rw [dottedAux, if_pos hx] at h
      rcases List.mem_cons.mp hc with rfl | hc
      · exact Or.inl hx
      · exact ih false h c hc
    · rw [dottedAux, if_neg hx] at h
      by_cases hdot : (x = '.' && !b) = true
      · rw [if_pos hdot] at h
        rcases List.mem_cons.mp hc with rfl | hc
        · rw [Bool.and_eq_true] at hdot
          exact Or.inr (by simpa using hdot.1)
        · exact ih true h c hc
      · rw [if_neg hdot] at h
        cases h

theorem dotted_ne_nil {l : List Char} (h : dottedAux true l = true) : l ≠ [] := by
  intro he
  subst he
  simp [dottedAux] at h

theorem dotted_no_slash {l : List Char} (h : dottedAux true l = true) :
    ∀ c ∈ l, ¬ c = '/' := by
  intro c hc he
  subst he
  rcases dotted_chars l true h '/' hc with hd | hd
  · simp at hd
  · simp at hd

theorem dropWhile_slash_eq_self : ∀ l : List Char, (∀ c ∈ l, ¬ c = '/') →
    l.dropWhile (fun c => c = '/') = l := by
  intro l h
  cases l with
  | nil => rfl
  | cons c cs =>
    rw [List.dropWhile_cons]
    rw [if_neg]
    simp only [decide_eq_true_eq]
    exact h c (List.mem_cons_self _ _)

theorem strip_no_slash (s : String) (h : ∀ c ∈ s.data, ¬ c = '/') : strip s = s := by
  apply stringExt
  show (s.data.reverse.dropWhile (fun c => c = '/')).reverse = s.data
  rw [dropWhile_slash_eq_self _ (fun c hc => h c (List.mem_reverse.mp hc)), List.reverse_reverse]

theorem strip_concat_slash {core : List Char} (h : ∀ c ∈ core, ¬ c = '/') :
    strip ⟨core ++ ['/']⟩ = ⟨core⟩ := by
  apply stringExt
  show ((core ++ ['/']).reverse.dropWhile (fun c => c = '/')).reverse = core
  rw [List.reverse_append]
  show (((['/'] : List Char).reverse ++ core.reverse).dropWhile (fun c => c = '/')).reverse = core
  rw [List.reverse_singleton, List.singleton_append, List.dropWhile_cons]
  rw [if_pos (by simp)]
  rw [dropWhile_slash_eq_self _ (fun c hc => h c (List.mem_reverse.mp hc)), List.reverse_reverse]

/-- A good directory entry, after `fixdirs` and the trailing-separator strip
of `get_latest_version`, is a plain dotted-numeric name. -/
theorem goodDir_strip_fixdirs {g : String} (hg : goodDirHttp g = true) :
    dottedB (strip (fixdirs g)) = true := by
  by_cases hlast : g.data.getLast? = some '/'
  · have hcore : dottedAux true g.data.dropLast = true := by
      rw [goodDirHttp, if_pos hlast] at hg
      exact hg
    have hns : ∀ c ∈ g.data.dropLast, ¬ c = '/' := dotted_no_slash hcore
    have hdecomp : g.data = g.data.dropLast ++ ['/'] := by
      have hne : g.data ≠ [] := by
        intro he
        rw [he] at hlast
        cases hlast
      have := List.dropLast_append_getLast hne
      rw [List.getLast?_eq_getLast _ hne] at hlast
      injection hlast with hlast
      rw [hlast] at this
      exact this.symm
    rw [fixdirs, if_pos hlast]
    by_cases htc : twoCompCore g.data.dropLast = true
    · rw [if_pos htc]
      rw [strip_no_slash (⟨g.data.dropLast⟩ : String) hns]
      exact hcore
    · rw [if_neg htc]
      have hsg : strip g = ⟨g.data.dropLast⟩ := by
        have h3 : g = ⟨g.data.dropLast ++ ['/']⟩ := by
          apply stringExt
          exact hdecomp
        conv_lhs => rw [h3]
        exact strip_concat_slash hns
      rw [hsg]
      exact hcore
  · have hcore : dottedAux true g.data = true := by
      rw [goodDirHttp, if_neg hlast] at hg
      exact hg
    rw [fixdirs, if_neg hlast, strip_no_slash g (dotted_no_slash hcore)]
    exact hcore

theorem dottedB_head_no_slash {d : String} (hd : dottedB d = true) :
    d.data ≠ [] ∧ d.data.head? ≠ some '/' := by
  refine ⟨dotted_ne_nil hd, ?_⟩
  cases hdt : d.data with
  | nil => simp
  | cons c cs =>
    simp only [List.head?_cons, ne_eq, Option.some.injEq]
    intro he
    subst he
    exact dotted_no_slash hd '/' (by rw [hdt]; exact List.mem_cons_self _ _) rfl

/-! ### Step equations for the descent loop -/

theorem descendTrace_none (listings : List (String × List String)) (maxv : Option String)
    (fuel : Nat) (loc : String) (h : lookupListing listings loc = none) :
    descendTrace listings maxv (fuel + 1) loc = ([loc], DescEnd.missingListing loc) := by
  simp only [descendTrace, h]

theorem descendTrace_found_eq {listings : List (String × List String)} (maxv : Option String)
    (fuel : Nat) {loc : String} {files : List String}
    (h : lookupListing listings loc = some files)
    (hnd : ((files.filter goodDirHttp).map fixdirs).isEmpty = true) :
    descendTrace listings maxv (fuel + 1) loc = ([loc], DescEnd.found loc files) := by
  simp only [descendTrace, h]
  rw [if_pos hnd]

theorem descendTrace_raised1 {listings : List (String × List String)} {maxv : Option String}
    (fuel : Nat) {loc : String} {files : List String}
    (h : lookupListing listings loc = some files)
    (hnd : ((files.filter goodDirHttp).map fixdirs).isEmpty = false)
    (hg : get_latest_version ((files.filter goodDirHttp).map fixdirs) maxv = none) :
    descendTrace listings maxv (fuel + 1) loc = ([loc], DescEnd.raised loc) := by
  simp only [descendTrace, h]
  rw [if_neg (by simp [hnd]), hg]

theorem descendTrace_raised2 {listings : List (String × List String)} {maxv : Option String}
    (fuel : Nat) {loc : String} {files : List String}
    (h : lookupListing listings loc = some files)
    (hnd : ((files.filter goodDirHttp).map fixdirs).isEmpty = false)
    (hg : get_latest_version ((files.filter goodDirHttp).map fixdirs) maxv = some none) :
    descendTrace listings maxv (fuel + 1) loc = ([loc], DescEnd.raised loc) := by
  simp only [descendTrace, h]
  rw [if_neg (by simp [hnd]), hg]

theorem descendTrace_step {listings : List (String × List String)} {maxv : Option String}
    (fuel : Nat) {loc : String} {files : List String} {d : String}
    (h : lookupListing listings loc = some files)
    (hnd : ((files.filter goodDirHttp).map fixdirs).isEmpty = false)
    (hg : get_latest_version ((files.filter goodDirHttp).map fixdirs) maxv = some (some d)) :
    descendTrace listings maxv (fuel + 1) loc =
      (loc :: (descendTrace listings maxv fuel (posixjoin3 loc d "")).1,
        (descendTrace listings maxv fuel (posixjoin3 loc d "")).2) := by
  simp only [descendTrace, h]
  rw [if_neg (by simp [hnd]), hg]

/-! ### Path growth and the termination measure -/

theorem posixjoin3_length {loc d : String} (hne : d.data ≠ [])
    (hhead : d.data.head? ≠ some '/') :
    loc.data.length < (posixjoin3 loc d "").data.length := by
  have hd : 0 < d.data.length := List.length_pos.mpr hne
  have hsep : ("/" : String).data.length = 1 := rfl
  have hempty : ("" : String).data.length = 0 := rfl
  have hlen1 : loc.data.length < (posixjoin loc d).data.length := by
    rw [posixjoin, if_neg hhead]
    by_cases hc : loc = "" ∨ loc.data.getLast? = some '/'
    · rw [if_pos hc, String.data_append, List.length_append]
      omega
    · rw [if_neg hc, String.data_append, String.data_append, List.length_append,
        List.length_append, hsep]
      omega
  have hlen2 : (posixjoin loc d).data.length ≤ (posixjoin3 loc d "").data.length := by
    rw [posixjoin3]
    generalize posixjoin loc d = j
    rw [posixjoin]
    rw [if_neg (by decide : ¬ ("" : String).data.head? = some '/')]
    by_cases hc : j = "" ∨ j.data.getLast? = some '/'
    · rw [if_pos hc, String.data_append, List.length_append, hempty]
      omega
    · rw [if_neg hc, String.data_append, String.data_append, List.length_append,
        List.length_append, hsep, hempty]
      omega
  omega

theorem glvGo_some_mem (maxv : Option String) :
    ∀ (vs : List String) (biggest : Option String) (b : String),
      glvGo maxv biggest vs = some (some b) → b ∈ vs ∨ biggest = some b := by
  intro vs
  induction vs with
  | nil =>
    intro biggest b h
    simp only [glvGo, Option.some.injEq] at h
    exact Or.inr h
  | cons v rest ih =>
    intro biggest b h
    cases biggest with
    | none =>
      have hexp : glvGo maxv none (v :: rest) =
          match version_greater_or_equal_to_max v maxv with
          | none => none
          | some true => glvGo maxv none rest
          | some false => glvGo maxv (some v) rest := rfl
      rw [hexp] at h
      cases hg : version_greater_or_equal_to_max v maxv with
      | none =>
        rw [hg] at h
        cases h
      | some g =>
        rw [hg] at h
        cases g with
        | true =>
          rcases ih none b h with hm | hc
          · exact Or.inl (List.mem_cons_of_mem _ hm)
          · cases hc
        | false =>
          rcases ih (some v) b h with hm | hc
          · exact Or.inl (List.mem_cons_of_mem _ hm)
          · injection hc with hc
            exact Or.inl (hc ▸ List.mem_cons_self _ _)
    | some b0 =>
      cases hr : bigger_version b0 v with
      | none =>
        have hz : glvGo maxv (some b0) (v :: rest) = none := by
          simp only [glvGo, hr]
        rw [hz] at h
        cases h
      | some r =>
        have hexp : glvGo maxv (some b0) (v :: rest) =
            match (v == r : Bool) with
            | false => glvGo maxv (some b0) rest
            | true =>
              match version_greater_or_equal_to_max v maxv with
              | none => none
              | some true => glvGo maxv (some b0) rest
              | some false => glvGo maxv (some v) rest := by
          simp only [glvGo, hr]
          cases (v == r : Bool) <;> rfl
        rw [hexp] at h
        cases hveq : (v == r : Bool) with
        | false =>
          rw [hveq] at h
          rcases ih (some b0) b h with hm | hc
          · exact Or.inl (List.mem_cons_of_mem _ hm)
          · exact Or.inr hc
        | true =>
          rw [hveq] at h
          cases hg : version_greater_or_equal_to_max v maxv with
          | none =>
            rw [hg] at h
            cases h
          | some g =>
            rw [hg] at h
            cases g with
            | true =>
              rcases ih (some b0) b h with hm | hc
              · exact Or.inl (List.mem_cons_of_mem _ hm)
              · exact Or.inr hc
            | false =>
              rcases ih (some v) b h with hm | hc
              · exact Or.inl (List.mem_cons_of_mem _ hm)
              · injection hc with hc
                exact Or.inl (hc ▸ List.mem_cons_self _ _)

theorem get_latest_version_some_mem {vs : List String} {maxv : Option String} {d : String}
    (h : get_latest_version vs maxv = some (some d)) : d ∈ vs.map strip := by
  rcases glvGo_some_mem maxv (vs.map strip) none d h with h1 | h1
  · exact h1
  · cases h1

/-- The termination measure: the number of listed locations at least as long
as the current path. -/
def keysGe (listings : List (String × List String)) (n : Nat) : Nat :=
  (listings.filter (fun kv => decide (n ≤ kv.1.data.length))).length

theorem length_filter_mono {α : Type} (P Q : α → Bool) (himp : ∀ x, Q x = true → P x = true) :
    ∀ l : List α, (l.filter Q).length ≤ (l.filter P).length := by
  intro l
  induction l with
  | nil => simp
  | cons a as ih =>
    rw [List.filter_cons, List.filter_cons]
    by_cases hq : Q a = true
    · rw [if_pos hq, if_pos (himp a hq)]
      simpa using ih
    · rw [if_neg hq]
      by_cases hp : P a = true
      · rw [if_pos hp]
        simp only [List.length_cons]
        omega
      · rw [if_neg hp]
        exact ih

theorem length_filter_lt {α : Type} (P Q : α → Bool) (himp : ∀ x, Q x = true → P x = true)
    (l : List α) (x : α) (hx : x ∈ l) (hP : P x = true) (hQ : Q x = false) :
    (l.filter Q).length < (l.filter P).length := by
  induction l with
  | nil => cases hx
  | cons a as ih =>
    rw [List.filter_cons, List.filter_cons]
    rcases List.mem_cons.mp hx with rfl | hx
    · rw [if_pos hP, if_neg (by simp [hQ])]
      have := length_filter_mono P Q himp as
      simp only [List.length_cons]
      omega
    · by_cases hqa : Q a = true
      · rw [if_pos hqa, if_pos (himp a hqa)]
        simp only [List.length_cons]
        exact Nat.succ_lt_succ (ih hx)
      · rw [if_neg hqa]
        by_cases hpa : P a = true
        · rw [if_pos hpa]
          simp only [List.length_cons]
          have := ih hx
          omega
        · rw [if_neg hpa]
          exact ih hx

theorem lookupListing_mem {listings : List (String × List String)} {loc : String}
    {files : List String} (h : lookupListing listings loc = some files) :
    ∃ kv ∈ listings, kv.1 = loc ∧ kv.2 = files := by
  unfold lookupListing at h
  cases hf : listings.find? (fun kv => kv.1 == loc) with
  | none =>
    rw [hf] at h
    cases h
  | some kv =>
    rw [hf] at h
    have hmem := List.mem_of_find?_eq_some hf
    have hp := List.find?_some hf
    simp only [beq_iff_eq] at hp
    simp only [Option.map_some', Option.some.injEq] at h
    exact ⟨kv, hmem, hp, h⟩

theorem keysGe_decrease {listings : List (String × List String)} {loc next : String}
    {files : List String} (hlk : lookupListing listings loc = some files)
    (hlt : loc.data.length < next.data.length) :
    keysGe listings next.data.length < keysGe listings loc.data.length := by
  obtain ⟨kv, hkv, hfst, -⟩ := lookupListing_mem hlk
  unfold keysGe
  apply length_filter_lt (fun kv => decide (loc.data.length ≤ kv.1.data.length))
      (fun kv => decide (next.data.length ≤ kv.1.data.length))
      (fun x hx => by
        simp only [decide_eq_true_eq] at hx ⊢
        omega)
      listings kv hkv
  · simp only [decide_eq_true_eq, hfst]
    omega
  · simp only [hfst, decide_eq_false_iff_not]
    omega

/-- With no ceiling, `get_latest_version` on a nonempty list of good
directory names cannot raise and cannot return `None`. -/
theorem glv_newdirs_no_raise {files : List String}
    (hne : (files.filter goodDirHttp).map fixdirs ≠ []) :
    ∃ d, get_latest_version ((files.filter goodDirHttp).map fixdirs) none = some (some d) := by
  have hdot : ∀ v ∈ (files.filter goodDirHttp).map fixdirs, dottedB (strip v) = true := by
    intro v hv
    rcases List.mem_map.mp hv with ⟨g, hgmem, rfl⟩
    exact goodDir_strip_fixdirs (List.mem_filter.mp hgmem).2
  have h := glvGo_spec none (fun m hm => by cases hm)
    (((files.filter goodDirHttp).map fixdirs).map strip) none
    (by
      intro v hv
      rcases List.mem_map.mp hv with ⟨w, hw, rfl⟩
      exact hdot w hw)
    (by simp)
  obtain ⟨r, hr⟩ := Option.isSome_iff_exists.mp h.1
  cases r with
  | none =>
    exfalso
    obtain ⟨-, hall⟩ := h.2.1.mp hr
    have hne2 : ((files.filter goodDirHttp).map fixdirs).map strip ≠ [] := by
      intro he
      exact hne (List.map_eq_nil_iff.mp he)
    obtain ⟨v, hv⟩ := List.exists_mem_of_ne_nil _ hne2
    have := hall v hv
    simp only [version_greater_or_equal_to_max] at this
    cases this
  | some d => exact ⟨d, hr⟩

theorem descendTrace_invariant (listings : List (String × List String)) (maxv : Option String) :
    ∀ (fuel : Nat) (loc : String), keysGe listings loc.data.length < fuel →
      ((descendTrace listings maxv fuel loc).2 ≠ DescEnd.fuelOut) ∧
      (∀ p ∈ (descendTrace listings maxv fuel loc).1, loc.data.length ≤ p.data.length) ∧
      ((descendTrace listings maxv fuel loc).1.Pairwise
        (fun p q => p.data.length < q.data.length)) ∧
      (∀ floc ffiles, (descendTrace listings maxv fuel loc).2 = DescEnd.found floc ffiles →
        lookupListing listings floc = some ffiles ∧
        ffiles.filter goodDirHttp = [] ∧
        (∀ p ∈ (descendTrace listings maxv fuel loc).1, p ≠ floc →
          ∃ fs, lookupListing listings p = some fs ∧ fs.filter goodDirHttp ≠ [])) ∧
      (maxv = none → ∀ p, (descendTrace listings maxv fuel loc).2 ≠ DescEnd.raised p) := by
  intro fuel
  induction fuel with
  | zero =>
    intro loc h
    exact absurd h (Nat.not_lt_zero _)
  | succ fuel ih =>
    intro loc hm
    cases hlk : lookupListing listings loc with
    | none =>
      have heq := descendTrace_none listings maxv fuel loc hlk
      rw [heq]
      refine ⟨by simp, ?_, by simp, ?_, by simp⟩
      · intro p hp
        simp only [List.mem_singleton] at hp
        subst hp
        exact Nat.le_refl _
      · intro floc ffiles hf
        simp at hf
    | some files =>
      by_cases hnd : ((files.filter goodDirHttp).map fixdirs).isEmpty = true
      · have heq := descendTrace_found_eq maxv fuel hlk hnd
        rw [heq]
        have hfe : files.filter goodDirHttp = [] := by
          rw [List.isEmpty_iff] at hnd
          exact List.map_eq_nil_iff.mp hnd
        refine ⟨by simp, ?_, by simp, ?_, by simp⟩
        · intro p hp
          simp only [List.mem_singleton] at hp
          subst hp
          exact Nat.le_refl _
        · intro floc ffiles hf
          simp only at hf
          injection hf with h1 h2
          subst h1
          subst h2
          refine ⟨hlk, hfe, ?_⟩
          intro p hp hne
          simp only [List.mem_singleton] at hp
          exact absurd hp hne
      · have hndF : ((files.filter goodDirHttp).map fixdirs).isEmpty = false := by
          rcases Bool.eq_false_or_eq_true ((files.filter goodDirHttp).map fixdirs).isEmpty
            with h | h
          · exact absurd h hnd
          · exact h
        have hndne : (files.filter goodDirHttp).map fixdirs ≠ [] := by
          intro he
          rw [he] at hndF
          cases hndF
        cases hglv : get_latest_version ((files.filter goodDirHttp).map fixdirs) maxv with
        | none =>
          have heq := descendTrace_raised1 fuel hlk hndF hglv
          rw [heq]
          refine ⟨by simp, ?_, by simp, ?_, ?_⟩
          · intro p hp
            simp only [List.mem_singleton] at hp
            subst hp
            exact Nat.le_refl _
          · intro floc ffiles hf
            simp at hf
          · intro hmn p
            subst hmn
            obtain ⟨d, hd⟩ := glv_newdirs_no_raise hndne
            rw [hd] at hglv
            cases hglv
        | some o =>
          cases o with
          | none =>
            have heq := descendTrace_raised2 fuel hlk hndF hglv
            rw [heq]
            refine ⟨by simp, ?_, by simp, ?_, ?_⟩
            · intro p hp
              simp only [List.mem_singleton] at hp
              subst hp
              exact Nat.le_refl _
            · intro floc ffiles hf
              simp at hf
            · intro hmn p
              subst hmn
              obtain ⟨d, hd⟩ := glv_newdirs_no_raise hndne
              rw [hd] at hglv
              cases hglv
          | some d =>
            have heq := descendTrace_step fuel hlk hndF hglv
            have hdmem := get_latest_version_some_mem hglv
            obtain ⟨e, he, hd⟩ := List.mem_map.mp hdmem
            obtain ⟨g, hgmem, hfix⟩ := List.mem_map.mp he
            have hgdot : dottedB d = true := by
              rw [← hd, ← hfix]
              exact goodDir_strip_fixdirs (List.mem_filter.mp hgmem).2
            have hdprop := dottedB_head_no_slash hgdot
            have hgrow : loc.data.length < (posixjoin3 loc d "").data.length :=
              posixjoin3_length hdprop.1 hdprop.2
            have hmdec := keysGe_decrease hlk hgrow
            have hfuel : keysGe listings (posixjoin3 loc d "").data.length < fuel := by
              omega
            have IH := ih (posixjoin3 loc d "") hfuel
            rw [heq]
            refine ⟨by simpa using IH.1, ?_, ?_, ?_, ?_⟩
            · intro p hp
              rcases List.mem_cons.mp hp with rfl | hp
              · exact Nat.le_refl _
              · have := IH.2.1 p hp
                omega
            · rw [List.pairwise_cons]
              refine ⟨?_, IH.2.2.1⟩
              intro q hq
              have := IH.2.1 q hq
              omega
            · intro floc ffiles hf
              simp only at hf
              have hfound := IH.2.2.2.1 floc ffiles hf
              refine ⟨hfound.1, hfound.2.1, ?_⟩
              intro p hp hpne
              rcases List.mem_cons.mp hp with rfl | hp
              · refine ⟨files, hlk, ?_⟩
                intro hfe
                apply hndne
                rw [hfe]
                rfl
              · exact hfound.2.2 p hp hpne
            · intro hmn p
              exact IH.2.2.2.2 hmn p

/-- C8: directory descent terminates. For every finite listing environment,
every ceiling and every start location, running the loop with fuel
`listings.length + 1` never exhausts the fuel (each visited location must be
a listed key strictly longer than the previous one, so the loop runs at most
`listings.length` steps before stopping); the visited locations are pairwise
distinct (each directory is visited at most once); and when the loop exits
normally it stops exactly at the first listing that contains no entry
matching the purely-numeric-dotted subdirectory pattern — every earlier
visited listing had a matching entry. With no ceiling the exception path
(`get_latest_version` returning `None`) is impossible, so the loop can only
stop at such a listing or on a failed fetch. -/
theorem c8_descent_terminates (listings : List (String × List String)) (maxv : Option String)
    (start : String) :
    ((descendTrace listings maxv (listings.length + 1) start).2 ≠ DescEnd.fuelOut) ∧
    ((descendTrace listings maxv (listings.length + 1) start).1.Pairwise
      (fun p q => p ≠ q)) ∧
    (∀ floc ffiles,
      (descendTrace listings maxv (listings.length + 1) start).2 =
          DescEnd.found floc ffiles →
      lookupListing listings floc = some ffiles ∧ ffiles.filter goodDirHttp = [] ∧
      ∀ p ∈ (descendTrace listings maxv (listings.length + 1) start).1, p ≠ floc →
        ∃ fs, lookupListing listings p = some fs ∧ fs.filter goodDirHttp ≠ []) ∧
    (maxv = none →
      ∀ p, (descendTrace listings maxv (listings.length + 1) start).2 ≠
        DescEnd.raised p) := by
  have hb : keysGe listings start.data.length < listings.length + 1 := by
    have hle : keysGe listings start.data.length ≤ listings.length := by
      unfold keysGe
      exact List.length_filter_le _ _
    omega
  have h := descendTrace_invariant listings maxv (listings.length + 1) start hb
  refine ⟨h.1, ?_, h.2.2.2.1, h.2.2.2.2⟩
  exact h.2.2.1.imp (fun hlt heq => by rw [heq] at hlt; exact Nat.lt_irrefl _ hlt)

/-- C8 witness: a two-level listing environment descends once and stops at
the listing with no versioned subdirectories. -/
theorem c8_descent_terminates_witness :
    ((descendTrace [("http://a", ["1.0/", "index.html"]),
        ("http://a/1.0/", ["foo-1.0.tar.xz"])] none
        ([("http://a", ["1.0/", "index.html"]),
          ("http://a/1.0/", ["foo-1.0.tar.xz"])].length + 1) "http://a").2 ≠
        DescEnd.fuelOut) ∧
      lookupListing [("http://a", ["1.0/", "index.html"]),
        ("http://a/1.0/", ["foo-1.0.tar.xz"])] "http://a/1.0/" =
        some ["foo-1.0.tar.xz"] := by
  have h := c8_descent_terminates
    [("http://a", ["1.0/", "index.html"]), ("http://a/1.0/", ["foo-1.0.tar.xz"])]
    none "http://a"
  exact ⟨h.1, (h.2.2.1 "http://a/1.0/" ["foo-1.0.tar.xz"] (by decide)).1⟩

/-! ## Claim C9: the run summary (`create_versions_file`, lines 548-588) -/

/-- Lexicographic code-point comparison of strings, as Python's `<=` used by
`list.sort()`: compare character by character; a proper prefix is smaller. -/
def lexLe : List Char → List Char → Bool
  | [], _ => true
  | _ :: _, [] => false
  | a :: as, b :: bs =>
    if a.toNat < b.toNat then true
    else if b.toNat < a.toNat then false
    else lexLe as bs

def strLe (a b : String) : Bool := lexLe a.data b.data

theorem lexLe_total : ∀ as bs : List Char, lexLe as bs = true ∨ lexLe bs as = true := by
  intro as
  induction as with
  | nil =>
    intro bs
    left
    rfl
  | cons a as ih =>
    intro bs
    cases bs with
    | nil =>
      right
      rfl
    | cons b bs =>
      simp only [lexLe]
      by_cases h1 : a.toNat < b.toNat
      · left
        rw [if_pos h1]
      · by_cases h2 : b.toNat < a.toNat
        · right
          rw [if_pos h2]
        · rw [if_neg h1, if_neg h2, if_neg h2, if_neg h1]
          exact ih bs

theorem lexLe_trans : ∀ as bs cs : List Char,
    lexLe as bs = true → lexLe bs cs = true → lexLe as cs = true := by
  intro as
  induction as with
  | nil =>
    intro bs cs _ _
    rfl
  | cons a as ih =>
    intro bs cs h1 h2
    cases bs with
    | nil => cases h1
    | cons b bs =>
      cases cs with
      | nil => cases h2
      | cons c cs =>
        simp only [lexLe] at h1 h2 ⊢
        by_cases hab1 : a.toNat < b.toNat
        · by_cases hbc1 : b.toNat < c.toNat
          · rw [if_pos (by omega : a.toNat < c.toNat)]
          · by_cases hbc2 : c.toNat < b.toNat
            · rw [if_neg hbc1, if_pos hbc2] at h2
              cases h2
            · rw [if_pos (by omega : a.toNat < c.toNat)]
        · by_cases hab2 : b.toNat < a.toNat
          · rw [if_neg hab1, if_pos hab2] at h1
            cases h1
          · by_cases hbc1 : b.toNat < c.toNat
            · rw [if_pos (by omega : a.toNat < c.toNat)]
            · by_cases hbc2 : c.toNat < b.toNat
              · rw [if_neg hbc1, if_pos hbc2] at h2
                cases h2
              · rw [if_neg hab1, if_neg hab2] at h1
                rw [if_neg hbc1, if_neg hbc2] at h2
                rw [if_neg (by omega : ¬ a.toNat < c.toNat),
                  if_neg (by omega : ¬ c.toNat < a.toNat)]
                exact ih bs cs h1 h2

instance : IsTotal String (fun a b => strLe a b = true) :=
  ⟨fun a b => lexLe_total a.data b.data⟩

instance : IsTrans String (fun a b => strLe a b = true) :=
  ⟨fun a b c => lexLe_trans a.data b.data c.data⟩

/-- One `versions.write(...)` call of `create_versions_file`, with the
trailing newlines of the format strings dropped (a bare `write('\n')` is a
`blankLine`). -/
inductive VChunk
  | setHeader (s : String)
  | tripletLine (s : String)
  | blankLine
  | subdirHeader (s : String)
  | subdirLine (s : String)
deriving DecidableEq

/-- Python `s.upper()` (ASCII). -/
def upperStr (s : String) : String := ⟨s.data.map Char.toUpper⟩

/-- Python `s.title()` (ASCII): the first letter of each alphabetic run is
upper-cased, the following letters lower-cased. -/
def titleAux : Bool → List Char → List Char
  | _, [] => []
  | prevAlpha, c :: cs =>
    if c.isAlpha then (if prevAlpha then c.toLower else c.toUpper) :: titleAux true cs
    else c :: titleAux false cs

def titleStr (s : String) : String := ⟨titleAux false s.data⟩

/-- `self.real_name.get(modulename, modulename)`. -/
def getRealName (rn : List (String × String)) (m : String) : String :=
  ((rn.find? (fun kv => kv.1 == m)).map (fun kv => kv.2)).getD m

/-- `self.subdir.get(modulename, None)`. -/
def getSubdir (sd : List (String × String)) (m : String) : Option String :=
  (sd.find? (fun kv => kv.1 == m)).map (fun kv => kv.2)

/-- How `'%s' % subdir` renders the subdir in the non-empty branch
(`None` prints as "None"). -/
def renderSubdir : Option String → String
  | some s => s
  | none => "None"

/-- `'%s:%s:%s:\n' % (release_set, real_module, version)` without the newline. -/
def tripletOf (rs real ver : String) : String :=
  rs ++ ":" ++ real ++ ":" ++ ver ++ ":"

/-- `'%s:%s:%s:%s\n' % (release_set, real_module, version, subdir)` without
the newline. -/
def subdirLineOf (rs real ver sdr : String) : String :=
  rs ++ ":" ++ real ++ ":" ++ ver ++ ":" ++ sdr

/-- `subdirs[subdir].append(line)` on an insertion-ordered dict. -/
def insertSubdir (subs : List (String × List String)) (k line : String) :
    List (String × List String) :=
  if (subs.find? (fun kv => kv.1 == k)).isSome then
    subs.map (fun kv => if kv.1 == k then (kv.1, kv.2 ++ [line]) else kv)
  else subs ++ [(k, [line])]

/-- The per-module loop of one release set (lines 559-578). State is
`(written triplet chunks, subdirs dict, done set)`; `none` models the bare
`except` branch (module missing from `all_tarballs`, or index out of range)
which removes the file and exits non-zero. -/
def setLoop (rn sd : List (String × String)) (allT allV : List String) (rs : String) :
    List String → List VChunk × List (String × List String) × List String →
    Option (List VChunk × List (String × List String) × List String)
  | [], st => some st
  | m :: mods, (trips, subs, done) =>
    match List.indexOf? m allT with
    | none => none
    | some i =>
      match allV[i]? with
      | none => none
      | some ver =>
        if getSubdir sd m = some "" then
          if done.contains (tripletOf rs (getRealName rn m) ver) then
            setLoop rn sd allT allV rs mods (trips, subs, done)
          else
            setLoop rn sd allT allV rs mods
              (trips ++ [VChunk.tripletLine (tripletOf rs (getRealName rn m) ver)], subs,
                done ++ [tripletOf rs (getRealName rn m) ver])
        else
          setLoop rn sd allT allV rs mods
            (trips,
              insertSubdir subs (renderSubdir (getSubdir sd m))
                (subdirLineOf rs (getRealName rn m) ver (renderSubdir (getSubdir sd m))),
              done)

/-- The lines stored for a subdir key. -/
def linesFor (subs : List (String × List String)) (k : String) : List String :=
  ((subs.find? (fun kv => kv.1 == k)).map (fun kv => kv.2)).getD []

/-- The chunks written for one subdir block (lines 580-586): a blank line, a
title-cased header, then the block's lines sorted. -/
def blockChunks (k : String) (lines : List String) : List VChunk :=
  VChunk.blankLine :: VChunk.subdirHeader (titleStr k) ::
    (List.insertionSort (fun a b => strLe a b = true) lines).map VChunk.subdirLine

/-- All subdir blocks of a release set, keyed in sorted order. -/
def renderBlocks (subs : List (String × List String)) : List VChunk :=
  ((List.insertionSort (fun a b => strLe a b = true) (subs.map (fun kv => kv.1))).map
    (fun k => blockChunks k (linesFor subs k))).flatten

/-- One iteration of the outer loop (lines 552-587): release set "Other" is
skipped entirely; otherwise the header is written, the sorted module list is
processed, and the subdir blocks and a trailing blank line follow the
triplet lines. -/
def processSet (rn sd : List (String × String)) (allT allV : List String)
    (done : List String) (rs : String) (mods : List String) :
    Option (List VChunk × List String) :=
  if rs = "Other" then some ([], done)
  else
    match setLoop rn sd allT allV rs (List.insertionSort (fun a b => strLe a b = true) mods)
        ([], [], done) with
    | none => none
    | some (trips, subs, done2) =>
      some (VChunk.setHeader (upperStr rs) :: trips ++ renderBlocks subs ++
        [VChunk.blankLine], done2)

/-- The outer fold over release sets, threading the `done` set. -/
def createVersionsGo (rn sd : List (String × String)) (allT allV : List String) :
    List (String × List String) → List String → Option (List VChunk)
  | [], _ => some []
  | (rs, mods) :: rest, done =>
    match processSet rn sd allT allV done rs mods with
    | none => none
    | some (chunks, done2) =>
      match createVersionsGo rn sd allT allV rest done2 with
      | none => none
      | some more => some (chunks ++ more)

/-- `ConvertToTarballs.create_versions_file` (lines 548-588), producing the
sequence of written chunks, or `none` when a module is missing from the
collected tarball list (fatal: the file is removed and the run exits 1). -/
def create_versions_file (sets : List (String × List String)) (rn sd : List (String × String))
    (allT allV : List String) : Option (List VChunk) :=
  createVersionsGo rn sd allT allV sets []

/-- The triplet (empty-subdir) entry lines of a chunk sequence. -/
def tripletLines (chunks : List VChunk) : List String :=
  chunks.filterMap (fun c =>
    match c with
    | VChunk.tripletLine l => some l
    | _ => none)

theorem tripletLines_append (l1 l2 : List VChunk) :
    tripletLines (l1 ++ l2) = tripletLines l1 ++ tripletLines l2 :=
  List.filterMap_append _ _ _

theorem tripletLines_map_subdirLine (ls : List String) :
    tripletLines (ls.map VChunk.subdirLine) = [] := by
  induction ls with
  | nil => rfl
  | cons x xs ih =>
    show tripletLines (xs.map VChunk.subdirLine) = []
    exact ih

theorem tripletLines_blockChunks (k : String) (lines : List String) :
    tripletLines (blockChunks k lines) = [] := by
  show tripletLines ((List.insertionSort (fun a b => strLe a b = true) lines).map VChunk.subdirLine) = []
  exact tripletLines_map_subdirLine _

theorem tripletLines_flatten (ls : List (List VChunk))
    (h : ∀ l ∈ ls, tripletLines l = []) : tripletLines ls.flatten = [] := by
  induction ls with
  | nil => rfl
  | cons x xs ih =>
    rw [List.flatten_cons, tripletLines_append, h x (List.mem_cons_self _ _),
      ih (fun l hl => h l (List.mem_cons_of_mem _ hl))]
    rfl

theorem tripletLines_renderBlocks (subs : List (String × List String)) :
    tripletLines (renderBlocks subs) = [] := by
  unfold renderBlocks
  apply tripletLines_flatten
  intro l hl
  rcases List.mem_map.mp hl with ⟨k, -, rfl⟩
  exact tripletLines_blockChunks _ _

theorem setLoop_spec (rn sd : List (String × String)) (allT allV : List String) (rs : String) :
    ∀ (mods : List String) (trips : List VChunk) (subs : List (String × List String))
      (done : List String) (trips2 : List VChunk) (subs2 : List (String × List String))
      (done2 : List String),
      setLoop rn sd allT allV rs mods (trips, subs, done) = some (trips2, subs2, done2) →
      ∃ newLines : List String,
        done2 = done ++ newLines ∧
        tripletLines trips2 = tripletLines trips ++ newLines ∧
        (done.Nodup → done2.Nodup) ∧
        (∀ c ∈ trips2, c ∈ trips ∨ ∃ l, c = VChunk.tripletLine l) := by
  intro mods
  induction mods with
  | nil =>
    intro trips subs done trips2 subs2 done2 h
    simp only [setLoop, Option.some.injEq] at h
    obtain ⟨h1, h2, h3⟩ : trips = trips2 ∧ subs = subs2 ∧ done = done2 := by
      refine ⟨congrArg (fun t => t.1) h, ?_, ?_⟩
      · exact congrArg (fun t => t.2.1) h
      · exact congrArg (fun t => t.2.2) h
    subst h1
    subst h3
    exact ⟨[], by simp, by simp, fun hd => hd, fun c hc => Or.inl hc⟩
  | cons m mods ih =>
    intro trips subs done trips2 subs2 done2 h
    cases hidx : List.indexOf? m allT with
    | none =>
      simp only [setLoop, hidx] at h
      cases h
    | some i =>
      cases hv : allV[i]? with
      | none =>
        simp only [setLoop, hidx, hv] at h
        cases h
      | some ver =>
        simp only [setLoop, hidx, hv] at h
        by_cases hsd : getSubdir sd m = some ""
        · rw [if_pos hsd] at h
          by_cases hcont : done.contains (tripletOf rs (getRealName rn m) ver) = true
          · rw [if_pos hcont] at h
            exact ih trips subs done trips2 subs2 done2 h
          · rw [if_neg hcont] at h
            obtain ⟨nl, hdone, htl, hnd, hmem⟩ := ih _ _ _ _ _ _ h
            have hcf : done.contains (tripletOf rs (getRealName rn m) ver) = false := by
              rcases Bool.eq_false_or_eq_true
                (done.contains (tripletOf rs (getRealName rn m) ver)) with hb | hb
              · exact absurd hb hcont
              · exact hb
            have hninl : tripletOf rs (getRealName rn m) ver ∉ done := contains_false_iff.mp hcf
            refine ⟨tripletOf rs (getRealName rn m) ver :: nl, ?_, ?_, ?_, ?_⟩
            · rw [hdone, List.append_assoc]
              rfl
            · have h1 : tripletLines [VChunk.tripletLine (tripletOf rs (getRealName rn m) ver)] =
                  [tripletOf rs (getRealName rn m) ver] := rfl
              rw [htl, tripletLines_append, h1, List.append_assoc]
              rfl
            · intro hd
              apply hnd
              rw [List.nodup_append]
              refine ⟨hd, by simp, ?_⟩
              intro a ha hat
              simp only [List.mem_singleton] at hat
              subst hat
              exact hninl ha
            · intro c hc
              rcases hmem c hc with hin | hex
              · rcases List.mem_append.mp hin with h1 | h1
                · exact Or.inl h1
                · right
                  exact ⟨tripletOf rs (getRealName rn m) ver, by simpa using h1⟩
              · exact Or.inr hex
        · rw [if_neg hsd] at h
          exact ih _ _ _ _ _ _ h

theorem processSet_spec (rn sd : List (String × String)) (allT allV : List String)
    (done : List String) (rs : String) (mods : List String) (chunks : List VChunk)
    (done2 : List String)
    (h : processSet rn sd allT allV done rs mods = some (chunks, done2)) :
    ∃ newLines : List String, done2 = done ++ newLines ∧ tripletLines chunks = newLines ∧
      (done.Nodup → done2.Nodup) := by
  unfold processSet at h
  by_cases hrs : rs = "Other"
  · rw [if_pos hrs] at h
    simp only [Option.some.injEq] at h
    obtain ⟨h1, h2⟩ : ([] : List VChunk) = chunks ∧ done = done2 := by
      exact ⟨congrArg (fun t => t.1) h, congrArg (fun t => t.2) h⟩
    subst h1
    subst h2
    exact ⟨[], by simp, rfl, fun hd => hd⟩
  · rw [if_neg hrs] at h
    cases hsl : setLoop rn sd allT allV rs (List.insertionSort (fun a b => strLe a b = true) mods)
        ([], [], done) with
    | none =>
      rw [hsl] at h
      cases h
    | some st =>
      obtain ⟨trips, subs, d2⟩ := st
      rw [hsl] at h
      simp only [Option.some.injEq] at h
      obtain ⟨h1, h2⟩ : VChunk.setHeader (upperStr rs) :: trips ++ renderBlocks subs ++
          [VChunk.blankLine] = chunks ∧ d2 = done2 := by
        exact ⟨congrArg (fun t => t.1) h, congrArg (fun t => t.2) h⟩
      subst h1
      subst h2
      obtain ⟨nl, hdone, htl, hnd, -⟩ := setLoop_spec rn sd allT allV rs _ _ _ _ _ _ _ hsl
      refine ⟨nl, hdone, ?_, hnd⟩
      have hstep : tripletLines (VChunk.setHeader (upperStr rs) :: trips ++
          renderBlocks subs ++ [VChunk.blankLine]) = tripletLines trips := by
        show tripletLines (trips ++ renderBlocks subs ++ [VChunk.blankLine]) = tripletLines trips
        rw [tripletLines_append, tripletLines_append, tripletLines_renderBlocks]
        simp [tripletLines]
      rw [hstep, htl]
      rfl

theorem createVersionsGo_spec (rn sd : List (String × String)) (allT allV : List String) :
    ∀ (sets : List (String × List String)) (done : List String) (chunks : List VChunk),
      done.Nodup →
      createVersionsGo rn sd allT allV sets done = some chunks →
      (tripletLines chunks).Nodup ∧ ∀ l ∈ tripletLines chunks, l ∉ done := by
  intro sets
  induction sets with
  | nil =>
    intro done chunks _ h
    simp only [createVersionsGo, Option.some.injEq] at h
    subst h
    exact ⟨List.nodup_nil, by simp [tripletLines]⟩
  | cons set rest ih =>
    obtain ⟨rs, mods⟩ := set
    intro done chunks hdnd h
    simp only [createVersionsGo] at h
    cases hps : processSet rn sd allT allV done rs mods with
    | none =>
      rw [hps] at h
      cases h
    | some out =>
      obtain ⟨c1, done2⟩ := out
      rw [hps] at h
      replace h : (match createVersionsGo rn sd allT allV rest done2 with
          | none => (none : Option (List VChunk))
          | some more => some (c1 ++ more)) = some chunks := h
      cases hgo : createVersionsGo rn sd allT allV rest done2 with
      | none =>
        rw [hgo] at h
        cases h
      | some c2 =>
        rw [hgo] at h
        simp only [Option.some.injEq] at h
        subst h
        obtain ⟨nl, hdone, htl, hnd⟩ := processSet_spec _ _ _ _ _ _ _ _ _ hps
        have hd2 : done2.Nodup := hnd hdnd
        have hrest := ih done2 c2 hd2 hgo
        have hsplit : (done ++ nl).Nodup := by
          rw [← hdone]
          exact hd2
        rw [List.nodup_append] at hsplit
        rw [tripletLines_append, htl]
        constructor
        · rw [List.nodup_append]
          refine ⟨hsplit.2.1, hrest.1, ?_⟩
          intro a ha hat
          have := hrest.2 a hat
          rw [hdone] at this
          exact this (List.mem_append_right _ ha)
        · intro l hl
          rcases List.mem_append.mp hl with h1 | h1
          · intro hld
            exact hsplit.2.2 hld h1
          · intro hld
            have := hrest.2 l h1
            rw [hdone] at this
            exact this (List.mem_append_left _ hld)

/-- C9 counterexample: a release set listing module "m" twice, with subdir
"lib", writes the resolved entry line "Core:m:1.0:lib" twice — the `done`
deduplication only guards the empty-subdir branch, so the summary does not
contain every resolved (group, module, version, subdir) entry exactly once. -/
theorem c9_summary_not_deduplicated :
    ((create_versions_file [("Core", ["m", "m"])] [] [("m", "lib")] ["m"] ["1.0"]).getD
        []).count (VChunk.subdirLine "Core:m:1.0:lib") = 2 := by decide

/-- C9 amended: the summary groups entries by release set with the header
first; empty-subdir entries are deduplicated across the whole run (each
triplet line appears at most once) and precede the subdir blocks, which are
keyed in sorted subdir order with each block's lines sorted as strings (i.e.
by release set, then real module name, then version — not by package name);
non-empty-subdir entries are written once per listing of the module, without
deduplication. -/
theorem c9_summary_structure :
    (∀ (sets : List (String × List String)) (rn sd : List (String × String))
      (allT allV : List String) (chunks : List VChunk),
      create_versions_file sets rn sd allT allV = some chunks →
      (tripletLines chunks).Nodup) ∧
    (∀ (rn sd : List (String × String)) (allT allV done : List String) (rs : String)
      (mods : List String) (out : List VChunk × List String),
      rs ≠ "Other" → processSet rn sd allT allV done rs mods = some out →
      ∃ trips subs,
        setLoop rn sd allT allV rs (List.insertionSort (fun a b => strLe a b = true) mods)
          ([], [], done) = some (trips, subs, out.2) ∧
        out.1 = VChunk.setHeader (upperStr rs) :: trips ++ renderBlocks subs ++
          [VChunk.blankLine] ∧
        ∀ c ∈ trips, ∃ l, c = VChunk.tripletLine l) ∧
    (∀ subs : List (String × List String),
      (List.insertionSort (fun a b => strLe a b = true) (subs.map (fun kv => kv.1))).Sorted
        (fun a b => strLe a b = true) ∧
      ∀ k, (List.insertionSort (fun a b => strLe a b = true) (linesFor subs k)).Sorted
        (fun a b => strLe a b = true)) := by
  refine ⟨?_, ?_, ?_⟩
  · intro sets rn sd allT allV chunks h
    exact (createVersionsGo_spec rn sd allT allV sets [] chunks List.nodup_nil h).1
  · intro rn sd allT allV done rs mods out hrs h
    unfold processSet at h
    rw [if_neg hrs] at h
    cases hsl : setLoop rn sd allT allV rs (List.insertionSort (fun a b => strLe a b = true) mods)
        ([], [], done) with
    | none =>
      rw [hsl] at h
      cases h
    | some st =>
      obtain ⟨trips, subs, d2⟩ := st
      rw [hsl] at h
      simp only [Option.some.injEq] at h
      obtain ⟨nl, -, -, -, hmem⟩ := setLoop_spec rn sd allT allV rs _ _ _ _ _ _ _ hsl
      have hout2 : out.2 = d2 := by
        rw [← h]
      have hout1 : out.1 = VChunk.setHeader (upperStr rs) :: trips ++ renderBlocks subs ++
          [VChunk.blankLine] := by
        rw [← h]
      refine ⟨trips, subs, ?_, hout1, ?_⟩
      · rw [hout2]
      · intro c hc
        rcases hmem c hc with hin | hex
        · cases hin
        · exact hex
  · intro subs
    exact ⟨List.sorted_insertionSort _ _, fun k => List.sorted_insertionSort _ _⟩

/-- C9 witness: a release set listing module "a" twice with empty subdir
writes the triplet line once; the triplet lines of the output have no
duplicates. -/
theorem c9_summary_structure_witness :
    (tripletLines [VChunk.setHeader "CORE", VChunk.tripletLine "Core:a:1.0:",
      VChunk.blankLine]).Nodup :=
  c9_summary_structure.1 [("Core", ["a", "a"])] [] [("a", "")] ["a"] ["1.0"]
    [VChunk.setHeader "CORE", VChunk.tripletLine "Core:a:1.0:", VChunk.blankLine] (by decide)

end Releng
